import Mathlib

/-!
Verification of the settings resolution engine (`src/pretix/base/settings.py`).

The development shallowly embeds the two components of the repository:

* `SettingsProxy` — hierarchical settings resolution with a lazily loaded
  per-owner cache, typed serialization (`_serialize`) and unserialization
  (`_unserialize`), local mutation (`set`, `__delitem__`).
* `SettingsSandbox` — a key-prefixing facade delegating to an owner's proxy.

Python values are modelled by the inductive `PyVal`.  Python `float`s are
modelled as exact decimal-scaled integers `mant * 10 ^ (-fexp)` in canonical
form (no trailing decimal zeros).  CPython guarantees `float(str(f)) == f`
(shortest round-tripping repr); the model keeps exactly this guarantee, using
the exact decimal expansion instead of the shortest one.  Binary rounding of
decimal literals is not modelled; no claim exercises it.  Non-finite floats
are outside the model.

The persisted string forms produced by `str`/`json.dumps` and parsed by
`int`/`float`/`json.loads` are modelled executably, so round-trip laws are
proved, not assumed.
-/

/-! ## Decimal digit strings (model of `str`/`int` on integers) -/

/-- Character for a single decimal digit (`0 ≤ d ≤ 9`). -/
def digitChar (d : Nat) : Char := Char.ofNat (48 + d)

/-- Numeric value of a decimal digit character. -/
def charDigitVal (c : Char) : Nat := c.toNat - 48

/-- Digits of `n`, most significant first, by repeated division (fuel-driven
so that it is kernel-computable). Produces `[]` for `n = 0`. -/
def natCharsAux : Nat → Nat → List Char
  | 0, _ => []
  | fuel + 1, n => if n = 0 then [] else natCharsAux fuel (n / 10) ++ [digitChar (n % 10)]

/-- Decimal representation of a natural number, as `str` prints it. -/
def natChars (n : Nat) : List Char := if n = 0 then ['0'] else natCharsAux n n

/-- Value of a decimal digit string (most significant digit first). -/
def charsToNat : List Char → Nat
  | [] => 0
  | c :: t => charDigitVal c * 10 ^ t.length + charsToNat t

/-- Decimal representation of an integer, as `str` prints it. -/
def intChars (n : Int) : List Char :=
  if n < 0 then '-' :: natChars n.natAbs else natChars n.toNat

/-- Model of `str(value)` for a Python `int`. -/
def pyStrOfInt (n : Int) : String := ⟨intChars n⟩

/-- Parse a non-empty all-digit character list; `none` models `ValueError`. -/
def parseNatChars (l : List Char) : Option Nat :=
  if l ≠ [] ∧ l.all Char.isDigit then some (charsToNat l) else none

/-- Signed decimal integer parser on characters: an optional sign followed
by decimal digits. -/
def intOfChars : List Char → Option Int
  | [] => none
  | c :: rest =>
    if c = '-' then
      match parseNatChars rest with
      | some m => some (-(m : Int))
      | none => none
    else if c = '+' then
      match parseNatChars rest with
      | some m => some ((m : Int))
      | none => none
    else
      match parseNatChars (c :: rest) with
      | some m => some ((m : Int))
      | none => none

/-- Model of Python `int(s)` on a string.  (CPython additionally strips
whitespace and underscores; such inputs are never produced by this code and
are not modelled.) -/
def pyIntOfString (s : String) : Option Int := intOfChars s.data

theorem charDigitVal_digitChar {d : Nat} (h : d < 10) :
    charDigitVal (digitChar d) = d := by
  interval_cases d <;> decide

theorem isDigit_digitChar {d : Nat} (h : d < 10) : (digitChar d).isDigit = true := by
  interval_cases d <;> decide

theorem charsToNat_append (a b : List Char) :
    charsToNat (a ++ b) = charsToNat a * 10 ^ b.length + charsToNat b := by
  induction a with
  | nil => simp [charsToNat]
  | cons c t ih =>
    show charDigitVal c * 10 ^ (t ++ b).length + charsToNat (t ++ b) = _
    rw [ih, List.length_append]
    show _ = (charDigitVal c * 10 ^ t.length + charsToNat t) * 10 ^ b.length + charsToNat b
    rw [pow_add]
    ring

theorem charsToNat_natCharsAux {fuel n : Nat} (h : n ≤ fuel) :
    charsToNat (natCharsAux fuel n) = n := by
  induction fuel generalizing n with
  | zero =>
    interval_cases n
    rfl
  | succ fuel ih =>
    by_cases h0 : n = 0
    · simp [natCharsAux, h0, charsToNat]
    · rw [natCharsAux, if_neg h0, charsToNat_append,
        ih (by omega : n / 10 ≤ fuel)]
      have hd : n % 10 < 10 := Nat.mod_lt _ (by omega)
      show n / 10 * 10 ^ ([digitChar (n % 10)].length) +
        (charDigitVal (digitChar (n % 10)) * 10 ^ (List.length ([] : List Char)) + 0) = n
      rw [charDigitVal_digitChar hd]
      simp
      omega

theorem charsToNat_natChars (n : Nat) : charsToNat (natChars n) = n := by
  by_cases h0 : n = 0
  · subst h0; rfl
  · rw [natChars, if_neg h0, charsToNat_natCharsAux (le_refl n)]

theorem natCharsAux_all_digits (fuel n : Nat) :
    (natCharsAux fuel n).all Char.isDigit = true := by
  induction fuel generalizing n with
  | zero => rfl
  | succ fuel ih =>
    by_cases h0 : n = 0
    · simp [natCharsAux, h0]
    · rw [natCharsAux, if_neg h0]
      simp only [List.all_append, ih]
      have hd : n % 10 < 10 := Nat.mod_lt _ (by omega)
      simp [isDigit_digitChar hd]

theorem natChars_all_digits (n : Nat) : (natChars n).all Char.isDigit = true := by
  by_cases h0 : n = 0
  · subst h0; rfl
  · rw [natChars, if_neg h0]; exact natCharsAux_all_digits n n

theorem natChars_ne_nil (n : Nat) : natChars n ≠ [] := by
  by_cases h0 : n = 0
  · subst h0; simp [natChars]
  · rw [natChars, if_neg h0]
    match n, h0 with
    | m + 1, h0 =>
      rw [natCharsAux, if_neg h0]
      simp

theorem parseNatChars_natChars (n : Nat) : parseNatChars (natChars n) = some n := by
  rw [parseNatChars, if_pos ⟨natChars_ne_nil n, natChars_all_digits n⟩,
    charsToNat_natChars]

theorem head_natChars_isDigit {n : Nat} {c : Char} {t : List Char}
    (h : natChars n = c :: t) : c.isDigit = true := by
  have hall := natChars_all_digits n
  rw [h] at hall
  simp only [List.all_cons, Bool.and_eq_true] at hall
  exact hall.1

theorem isDigit_ne_neg {c : Char} (h : c.isDigit = true) : c ≠ '-' := by
  intro hc; subst hc; simp [Char.isDigit] at h

theorem isDigit_ne_plus {c : Char} (h : c.isDigit = true) : c ≠ '+' := by
  intro hc; subst hc; simp [Char.isDigit] at h

/-- Round trip: Python `int(str(n)) == n`. -/
theorem pyIntOfString_pyStrOfInt (n : Int) : pyIntOfString (pyStrOfInt n) = some n := by
  show intOfChars (intChars n) = some n
  by_cases hneg : n < 0
  · rw [intChars, if_pos hneg]
    show intOfChars ('-' :: natChars n.natAbs) = some n
    rw [intOfChars, if_pos rfl, parseNatChars_natChars]
    show some (-(n.natAbs : Int)) = some n
    congr 1
    omega
  · rw [intChars, if_neg hneg]
    obtain ⟨c, t, hct⟩ : ∃ c t, natChars n.toNat = c :: t := by
      match h : natChars n.toNat with
      | [] => exact absurd h (natChars_ne_nil _)
      | c :: t => exact ⟨c, t, rfl⟩
    have hd := head_natChars_isDigit hct
    rw [hct, intOfChars, if_neg (isDigit_ne_neg hd), if_neg (isDigit_ne_plus hd),
      ← hct, parseNatChars_natChars]
    show some ((n.toNat : Int)) = some n
    congr 1
    omega

/-! ## Model of Python floats

A finite Python float value is modelled exactly as `mant * 10 ^ (-fexp)` with
the canonicity condition that a nonzero exponent forbids a mantissa divisible
by ten (no trailing decimal zeros), which makes the representation unique for
each represented rational. -/

/-- Canonicity: a positive decimal exponent requires a mantissa not divisible
by ten. -/
def FloatCanon (p : Int × Nat) : Prop := 0 < p.2 → p.1 % 10 ≠ 0

/-- A Python float value: canonical exact decimal `mant * 10 ^ (-fexp)`. -/
def PyFloat : Type := { p : Int × Nat // FloatCanon p }

instance : DecidableEq PyFloat :=
  fun a b => decidable_of_iff (a.val = b.val) Subtype.ext_iff.symm

/-- Strip trailing decimal zeros, producing the canonical representation of
`m * 10 ^ (-e)`. -/
def canonizeF : Int → Nat → PyFloat
  | m, 0 => ⟨(m, 0), fun h => absurd h (Nat.lt_irrefl 0)⟩
  | m, e + 1 =>
    if h : m % 10 = 0 then canonizeF (m / 10) e
    else ⟨(m, e + 1), fun _ => h⟩

/-- Negation of a float value (used by the leading-minus parse case). -/
def negFloat (f : PyFloat) : PyFloat :=
  ⟨(-f.val.1, f.val.2), fun h hm => f.property h (by omega)⟩

/-- Digits of `a` left-padded with zeros to at least `e + 1` digits (so that a
decimal point can be placed `e` digits from the right). -/
def padDigits (a e : Nat) : List Char :=
  List.replicate (e + 1 - (natChars a).length) '0' ++ natChars a

/-- The digit string of the unsigned part of `str` on the float
`a * 10 ^ (-e)`: the exact decimal expansion, with `".0"` appended for
integral values just as CPython prints them. -/
def unsignedFloatChars (a : Nat) (e : Nat) : List Char :=
  if e = 0 then natChars a ++ ['.', '0']
  else
    (padDigits a e).take ((padDigits a e).length - e) ++
      '.' :: (padDigits a e).drop ((padDigits a e).length - e)

/-- Character form of `str(value)` for a Python float. -/
def floatChars (f : PyFloat) : List Char :=
  (if f.val.1 < 0 then ['-'] else []) ++ unsignedFloatChars f.val.1.natAbs f.val.2

/-- Model of `str(value)` for a Python float (exact decimal expansion; CPython
prints the shortest round-tripping decimal, which parses back identically). -/
def pyStrOfFloat (f : PyFloat) : String := ⟨floatChars f⟩

/-- Shared unsigned decimal-number scanner: digits with an optional fraction.
Returns the combined digit value, the number of fraction digits (`0` when no
point is present), and the unconsumed suffix. -/
def numCore (l : List Char) : Option ((Nat × Nat) × List Char) :=
  if (l.takeWhile Char.isDigit).isEmpty then none
  else
    match l.dropWhile Char.isDigit with
    | '.' :: r2 =>
      if (r2.takeWhile Char.isDigit).isEmpty then none
      else
        some ((charsToNat (l.takeWhile Char.isDigit ++ r2.takeWhile Char.isDigit),
          (r2.takeWhile Char.isDigit).length), r2.dropWhile Char.isDigit)
    | r1 => some ((charsToNat (l.takeWhile Char.isDigit), 0), r1)

/-- Float literal parser on characters: optional sign, digits, optional
fraction, nothing else. -/
def floatOfChars (l : List Char) : Option PyFloat :=
  match l with
  | [] => none
  | c :: rest =>
    if c = '-' then
      match numCore rest with
      | some (vp, r) => if r.isEmpty then some (canonizeF (-(vp.1 : Int)) vp.2) else none
      | none => none
    else if c = '+' then
      match numCore rest with
      | some (vp, r) => if r.isEmpty then some (canonizeF (vp.1 : Int) vp.2) else none
      | none => none
    else
      match numCore (c :: rest) with
      | some (vp, r) => if r.isEmpty then some (canonizeF (vp.1 : Int) vp.2) else none
      | none => none

/-- Model of Python `float(s)`.  (CPython additionally accepts forms such as
`"5."`, `".5"`, exponents and `"inf"`; none of those are produced by this
code and they are not modelled.) -/
def pyFloatOfString (s : String) : Option PyFloat := floatOfChars s.data

/-- A list whose head cannot extend a decimal number (used to show the number
scanners stop exactly at the end of a printed number). -/
def NumBoundary : List Char → Prop
  | [] => True
  | c :: _ => c.isDigit = false ∧ c ≠ '.'

theorem takeWhile_append_all (p : Char → Bool) (xs ys : List Char)
    (hall : xs.all p = true)
    (hy : match ys with | [] => True | c :: _ => p c = false) :
    (xs ++ ys).takeWhile p = xs ∧ (xs ++ ys).dropWhile p = ys := by
  induction xs with
  | nil =>
    simp only [List.nil_append]
    match ys, hy with
    | [], _ => exact ⟨rfl, rfl⟩
    | c :: t, hy => simp [List.takeWhile_cons, List.dropWhile_cons, hy]
  | cons x t ih =>
    simp only [List.all_cons, Bool.and_eq_true] at hall
    have hrec := ih hall.2
    simp [List.takeWhile_cons, List.dropWhile_cons, hall.1, hrec.1, hrec.2]

theorem takeWhile_boundary {l : List Char} (hb : NumBoundary l) :
    l.takeWhile Char.isDigit = [] ∧ l.dropWhile Char.isDigit = l := by
  match l, hb with
  | [], _ => exact ⟨rfl, rfl⟩
  | c :: t, hb => simp [List.takeWhile_cons, List.dropWhile_cons, hb.1]

theorem charsToNat_replicate_zero (j : Nat) :
    charsToNat (List.replicate j '0') = 0 := by
  induction j with
  | zero => rfl
  | succ j ih =>
    show charDigitVal '0' * 10 ^ _ + charsToNat (List.replicate j '0') = 0
    rw [ih]
    have h0 : charDigitVal '0' = 0 := rfl
    rw [h0]
    ring

theorem isEmpty_false_of_ne_nil {l : List Char} (h : l ≠ []) :
    ¬(l.isEmpty = true) := fun he => h (List.isEmpty_iff.mp he)

theorem padDigits_all_digits (a e : Nat) : (padDigits a e).all Char.isDigit = true := by
  rw [padDigits, List.all_append, natChars_all_digits, Bool.and_true]
  rw [List.all_eq_true]
  intro c hc
  rw [List.eq_of_mem_replicate hc]
  decide

theorem charsToNat_padDigits (a e : Nat) : charsToNat (padDigits a e) = a := by
  rw [padDigits, charsToNat_append, charsToNat_replicate_zero, charsToNat_natChars]
  ring

theorem padDigits_length (a e : Nat) : e + 1 ≤ (padDigits a e).length := by
  rw [padDigits, List.length_append, List.length_replicate]
  have := natChars_ne_nil a
  have : 1 ≤ (natChars a).length := by
    cases h : natChars a with
    | nil => exact absurd h (natChars_ne_nil a)
    | cons c t => simp [h]
  omega

theorem all_take {p : Char → Bool} {l : List Char} (h : l.all p = true) (j : Nat) :
    (l.take j).all p = true := by
  rw [List.all_eq_true] at h ⊢
  intro c hc
  exact h c (List.mem_of_mem_take hc)

theorem all_drop {p : Char → Bool} {l : List Char} (h : l.all p = true) (j : Nat) :
    (l.drop j).all p = true := by
  rw [List.all_eq_true] at h ⊢
  intro c hc
  exact h c (List.mem_of_mem_drop hc)

theorem numCore_unsigned (a e : Nat) (rest : List Char) (hb : NumBoundary rest) :
    numCore (unsignedFloatChars a e ++ rest) =
      some ((if e = 0 then 10 * a else a, if e = 0 then 1 else e), rest) := by
  by_cases he : e = 0
  · subst he
    rw [unsignedFloatChars, if_pos rfl]
    have hsplit : (natChars a ++ ['.', '0']) ++ rest =
        natChars a ++ ('.' :: '0' :: rest) := by simp
    rw [hsplit]
    have h1 := takeWhile_append_all Char.isDigit (natChars a) ('.' :: '0' :: rest)
      (natChars_all_digits a) (by show Char.isDigit '.' = false; decide)
    have h2 : ('0' :: rest).takeWhile Char.isDigit = ['0'] ∧
        ('0' :: rest).dropWhile Char.isDigit = rest := by
      have hrest := takeWhile_boundary hb
      constructor
      · rw [List.takeWhile_cons, if_pos (by decide), hrest.1]
      · rw [List.dropWhile_cons, if_pos (by decide), hrest.2]
    rw [numCore, h1.2]
    show (if ((natChars a ++ ('.' :: '0' :: rest)).takeWhile Char.isDigit).isEmpty
        then none
        else
          if (('0' :: rest).takeWhile Char.isDigit).isEmpty then none
          else
            some ((charsToNat ((natChars a ++ ('.' :: '0' :: rest)).takeWhile Char.isDigit ++
              ('0' :: rest).takeWhile Char.isDigit),
              (('0' :: rest).takeWhile Char.isDigit).length),
              ('0' :: rest).dropWhile Char.isDigit)) = _
    rw [h1.1, h2.1, h2.2]
    rw [if_neg (isEmpty_false_of_ne_nil (natChars_ne_nil a)), if_neg (by decide)]
    rw [charsToNat_append, charsToNat_natChars]
    have hz : charsToNat ['0'] = 0 := rfl
    rw [hz]
    simp [Nat.mul_comm]
  · rw [unsignedFloatChars, if_neg he]
    have hlen := padDigits_length a e
    have hall := padDigits_all_digits a e
    have hsplit : ((padDigits a e).take ((padDigits a e).length - e) ++
        '.' :: (padDigits a e).drop ((padDigits a e).length - e)) ++ rest =
        (padDigits a e).take ((padDigits a e).length - e) ++
          ('.' :: ((padDigits a e).drop ((padDigits a e).length - e) ++ rest)) := by
      simp
    rw [hsplit]
    have h1 := takeWhile_append_all Char.isDigit
      ((padDigits a e).take ((padDigits a e).length - e))
      ('.' :: ((padDigits a e).drop ((padDigits a e).length - e) ++ rest))
      (all_take hall _) (by show Char.isDigit '.' = false; decide)
    have h2 := takeWhile_append_all Char.isDigit
      ((padDigits a e).drop ((padDigits a e).length - e)) rest
      (all_drop hall _)
      (by match rest, hb with
          | [], _ => exact trivial
          | c :: t, hb => exact hb.1)
    have hdrop_len : ((padDigits a e).drop ((padDigits a e).length - e)).length = e := by
      rw [List.length_drop]
      omega
    have htake_ne : (padDigits a e).take ((padDigits a e).length - e) ≠ [] := by
      intro hnil
      have := congrArg List.length hnil
      rw [List.length_take] at this
      simp only [List.length_nil] at this
      omega
    have hdrop_ne : (padDigits a e).drop ((padDigits a e).length - e) ≠ [] := by
      intro hnil
      rw [hnil] at hdrop_len
      simp only [List.length_nil] at hdrop_len
      omega
    rw [numCore, h1.2]
    show (if (((padDigits a e).take ((padDigits a e).length - e) ++
          ('.' :: ((padDigits a e).drop ((padDigits a e).length - e) ++ rest))).takeWhile
            Char.isDigit).isEmpty
        then none
        else
          if (((padDigits a e).drop ((padDigits a e).length - e) ++ rest).takeWhile
              Char.isDigit).isEmpty then none
          else
            some ((charsToNat (((padDigits a e).take ((padDigits a e).length - e) ++
              ('.' :: ((padDigits a e).drop ((padDigits a e).length - e) ++ rest))).takeWhile
                Char.isDigit ++
              ((padDigits a e).drop ((padDigits a e).length - e) ++ rest).takeWhile
                Char.isDigit),
              (((padDigits a e).drop ((padDigits a e).length - e) ++ rest).takeWhile
                Char.isDigit).length),
              ((padDigits a e).drop ((padDigits a e).length - e) ++ rest).dropWhile
                Char.isDigit)) = _
    rw [h1.1, h2.1, h2.2]
    rw [if_neg (isEmpty_false_of_ne_nil htake_ne),
      if_neg (isEmpty_false_of_ne_nil hdrop_ne)]
    rw [List.take_append_drop, charsToNat_padDigits, hdrop_len]
    rw [if_neg he, if_neg he]

theorem canonizeF_self {m : Int} {e : Nat} (h : FloatCanon (m, e)) :
    canonizeF m e = ⟨(m, e), h⟩ := by
  cases e with
  | zero => rfl
  | succ e =>
    rw [canonizeF, dif_neg (h (Nat.succ_pos e))]

theorem canonizeF_succ (m : Int) (e : Nat) :
    canonizeF m (e + 1) = if h : m % 10 = 0 then canonizeF (m / 10) e
      else ⟨(m, e + 1), fun _ => h⟩ := rfl

theorem canonizeF_mul10 (m : Int) : canonizeF (10 * m) 1 = canonizeF m 0 := by
  have hd : (10 * m) % 10 = 0 := by omega
  have h1 : (1 : Nat) = 0 + 1 := rfl
  rw [h1, canonizeF_succ, dif_pos hd]
  have hq : 10 * m / 10 = m := by omega
  rw [hq]

theorem take_padDigits_ne_nil (a e : Nat) :
    (padDigits a e).take ((padDigits a e).length - e) ≠ [] := by
  have hlen := padDigits_length a e
  intro hnil
  have := congrArg List.length hnil
  rw [List.length_take] at this
  simp only [List.length_nil] at this
  omega

theorem unsigned_head (a e : Nat) :
    ∃ c t, unsignedFloatChars a e = c :: t ∧ c.isDigit = true := by
  by_cases he : e = 0
  · subst he
    rw [unsignedFloatChars, if_pos rfl]
    obtain ⟨c, t, hct⟩ : ∃ c t, natChars a = c :: t := by
      match h : natChars a with
      | [] => exact absurd h (natChars_ne_nil _)
      | c :: t => exact ⟨c, t, rfl⟩
    exact ⟨c, t ++ ['.', '0'], by rw [hct]; rfl, head_natChars_isDigit hct⟩
  · rw [unsignedFloatChars, if_neg he]
    obtain ⟨c, t, hct⟩ : ∃ c t,
        (padDigits a e).take ((padDigits a e).length - e) = c :: t := by
      match h : (padDigits a e).take ((padDigits a e).length - e) with
      | [] => exact absurd h (take_padDigits_ne_nil a e)
      | c :: t => exact ⟨c, t, rfl⟩
    refine ⟨c, t ++ '.' :: (padDigits a e).drop ((padDigits a e).length - e),
      by rw [hct]; rfl, ?_⟩
    have hmem : c ∈ padDigits a e := by
      have : c ∈ (padDigits a e).take ((padDigits a e).length - e) := by
        rw [hct]; exact List.mem_cons_self c t
      exact List.mem_of_mem_take this
    have hall := padDigits_all_digits a e
    rw [List.all_eq_true] at hall
    exact hall c hmem

/-- Round trip: Python `float(str(f)) == f` in the exact-decimal model. -/
theorem floatOfChars_floatChars (f : PyFloat) : floatOfChars (floatChars f) = some f := by
  obtain ⟨⟨m, e⟩, hc⟩ := f
  have hnc := numCore_unsigned (Int.natAbs m) e [] trivial
  rw [List.append_nil] at hnc
  by_cases hm : m < 0
  · have hfc : floatChars ⟨(m, e), hc⟩ = '-' :: unsignedFloatChars m.natAbs e := by
      rw [floatChars]
      show (if m < 0 then ['-'] else []) ++ _ = _
      rw [if_pos hm]
      rfl
    rw [hfc, floatOfChars, if_pos rfl, hnc]
    show some (canonizeF (-(((if e = 0 then 10 * m.natAbs else m.natAbs : Nat)) : Int))
      (if e = 0 then 1 else e)) = some ⟨(m, e), hc⟩
    by_cases he : e = 0
    · subst he
      rw [if_pos rfl, if_pos rfl]
      have hcast : (-((10 * m.natAbs : Nat) : Int)) = 10 * (-(m.natAbs : Int)) := by
        push_cast
        ring
      rw [hcast, canonizeF_mul10]
      have hv : -((m.natAbs : Nat) : Int) = m := by omega
      rw [hv]
      rfl
    · rw [if_neg he, if_neg he]
      have hv : -((m.natAbs : Nat) : Int) = m := by omega
      rw [hv, canonizeF_self hc]
  · have hfc : floatChars ⟨(m, e), hc⟩ = unsignedFloatChars m.natAbs e := by
      rw [floatChars]
      show (if m < 0 then ['-'] else []) ++ _ = _
      rw [if_neg hm]
      rfl
    obtain ⟨c, t, hct, hcd⟩ := unsigned_head m.natAbs e
    rw [hfc, hct, floatOfChars, if_neg (isDigit_ne_neg hcd), if_neg (isDigit_ne_plus hcd),
      ← hct, hnc]
    show some (canonizeF (((if e = 0 then 10 * m.natAbs else m.natAbs : Nat)) : Int)
      (if e = 0 then 1 else e)) = some ⟨(m, e), hc⟩
    by_cases he : e = 0
    · subst he
      rw [if_pos rfl, if_pos rfl]
      have hcast : (((10 * m.natAbs : Nat)) : Int) = 10 * ((m.natAbs : Int)) := by
        push_cast
        ring
      rw [hcast, canonizeF_mul10]
      have hv : ((m.natAbs : Nat) : Int) = m := by omega
      rw [hv]
      rfl
    · rw [if_neg he, if_neg he]
      have hv : ((m.natAbs : Nat) : Int) = m := by omega
      rw [hv, canonizeF_self hc]

/-- Round trip at the `String` level. -/
theorem pyFloatOfString_pyStrOfFloat (f : PyFloat) :
    pyFloatOfString (pyStrOfFloat f) = some f :=
  floatOfChars_floatChars f

/-! ## Python values

`PyVal` models the Python values this code can encounter: strings, ints,
floats, bools, lists, mappings and `None`.  Mapping payloads are opaque to
every code path exercised here (`_serialize` rejects mappings before any
inspection), so their entries are carried structurally and never examined. -/

/-- A Python runtime value, as far as the settings engine observes it. -/
inductive PyVal where
  | vStr (s : String)
  | vInt (n : Int)
  | vFloat (f : PyFloat)
  | vBool (b : Bool)
  | vList (l : List PyVal)
  | vDict (entries : List (PyVal × PyVal))
  | vNone

/-! ## JSON encoding (model of `json.dumps` with its default options) -/

/-- Lower-case hexadecimal digit character. -/
def hexDigitChar (d : Nat) : Char :=
  if d < 10 then Char.ofNat (48 + d) else Char.ofNat (87 + d)

/-- Four-digit lower-case hex rendering of `x % 65536`. -/
def hex4 (x : Nat) : List Char :=
  [hexDigitChar (x / 4096 % 16), hexDigitChar (x / 256 % 16),
   hexDigitChar (x / 16 % 16), hexDigitChar (x % 16)]

/-- JSON escaping of one character, as `json.dumps` with `ensure_ascii=True`
produces it: printable ASCII passes through, the short escapes are used for
the usual control characters, and everything else becomes `\uXXXX`, with
surrogate pairs above `U+FFFF`. -/
def escChar (c : Char) : List Char :=
  if c = '"' then ['\\', '"']
  else if c = '\\' then ['\\', '\\']
  else if c = '\n' then ['\\', 'n']
  else if c = '\t' then ['\\', 't']
  else if c = '\r' then ['\\', 'r']
  else if c.toNat = 8 then ['\\', 'b']
  else if c.toNat = 12 then ['\\', 'f']
  else if 32 ≤ c.toNat ∧ c.toNat ≤ 126 then [c]
  else if c.toNat < 65536 then '\\' :: 'u' :: hex4 c.toNat
  else ('\\' :: 'u' :: hex4 (55296 + (c.toNat - 65536) / 1024)) ++
    ('\\' :: 'u' :: hex4 (56320 + (c.toNat - 65536) % 1024))

/-- JSON escaping of a character list. -/
def escString (l : List Char) : List Char := (l.map escChar).flatten

mutual

/-- Model of `json.dumps(value)` (default separators `", "`, sorted keys off,
`ensure_ascii` on), restricted to the values this repository can feed it:
mappings are outside the model (`_serialize` raises before ever passing one). -/
def jsonDumpsChars : PyVal → Option (List Char)
  | .vStr s => some ('"' :: (escString s.data ++ ['"']))
  | .vInt n => some (intChars n)
  | .vFloat f => some (floatChars f)
  | .vBool b => some (if b then ['t', 'r', 'u', 'e'] else ['f', 'a', 'l', 's', 'e'])
  | .vNone => some ['n', 'u', 'l', 'l']
  | .vList l =>
    match jsonDumpsList l with
    | some inner => some ('[' :: (inner ++ [']']))
    | none => none
  | .vDict _ => none

/-- Encode list elements joined by `", "`. -/
def jsonDumpsList : List PyVal → Option (List Char)
  | [] => some []
  | [v] => jsonDumpsChars v
  | v :: vs =>
    match jsonDumpsChars v, jsonDumpsList vs with
    | some a, some b => some (a ++ ',' :: ' ' :: b)
    | _, _ => none

end

/-- Model of `json.dumps` at the `String` level; `none` models the
`TypeError` `json.dumps` raises on unsupported structures. -/
def jsonDumps (v : PyVal) : Option String :=
  match jsonDumpsChars v with
  | some cs => some ⟨cs⟩
  | none => none

/-! ## JSON parsing (model of `json.loads`)

The parser is fuel-indexed (one unit of fuel per recursive step) so that it
is structurally recursive and kernel-computable.  `jsonLoads` supplies fuel
exceeding the input length, which suffices for every input the encoder can
produce; exhausted fuel is a parse error.  JSON objects are not parsed: no
code path of the repository ever decodes one (see `jsonDumpsChars`). -/

/-- Hexadecimal digit value. -/
def hexVal (c : Char) : Option Nat :=
  if 48 ≤ c.toNat ∧ c.toNat ≤ 57 then some (c.toNat - 48)
  else if 97 ≤ c.toNat ∧ c.toNat ≤ 102 then some (c.toNat - 87)
  else if 65 ≤ c.toNat ∧ c.toNat ≤ 70 then some (c.toNat - 55)
  else none

/-- Combine four hex digit values. -/
def combineHex (a b c d : Nat) : Nat := ((a * 16 + b) * 16 + c) * 16 + d

/-- Parse the low half of a surrogate pair following a high surrogate `x`. -/
def pSurrogate (x : Nat) (rest : List Char) : Option (Char × List Char) :=
  match rest with
  | '\\' :: 'u' :: g1 :: g2 :: g3 :: g4 :: rest2 =>
    match hexVal g1, hexVal g2, hexVal g3, hexVal g4 with
    | some e1, some e2, some e3, some e4 =>
      if 56320 ≤ combineHex e1 e2 e3 e4 ∧ combineHex e1 e2 e3 e4 < 57344 then
        some (Char.ofNat (65536 + (x - 55296) * 1024 + (combineHex e1 e2 e3 e4 - 56320)),
          rest2)
      else none
    | _, _, _, _ => none
  | _ => none

/-- Parse a `uXXXX` escape tail (the `u` already consumed), combining
surrogate pairs and rejecting lone surrogates. -/
def pHex4Esc (r : List Char) : Option (Char × List Char) :=
  match r with
  | h1 :: h2 :: h3 :: h4 :: rest =>
    match hexVal h1, hexVal h2, hexVal h3, hexVal h4 with
    | some a, some b, some c, some d =>
      if 55296 ≤ combineHex a b c d ∧ combineHex a b c d < 56320 then
        pSurrogate (combineHex a b c d) rest
      else if 56320 ≤ combineHex a b c d ∧ combineHex a b c d < 57344 then none
      else some (Char.ofNat (combineHex a b c d), rest)
    | _, _, _, _ => none
  | _ => none

/-- Parse one string escape sequence (the backslash already consumed). -/
def pEsc : List Char → Option (Char × List Char)
  | '"' :: r => some ('"', r)
  | '\\' :: r => some ('\\', r)
  | '/' :: r => some ('/', r)
  | 'n' :: r => some ('\n', r)
  | 't' :: r => some ('\t', r)
  | 'r' :: r => some ('\r', r)
  | 'b' :: r => some (Char.ofNat 8, r)
  | 'f' :: r => some (Char.ofNat 12, r)
  | 'u' :: r => pHex4Esc r
  | _ => none

/-- Parse a JSON string body up to the closing quote. -/
def pStrBody : Nat → List Char → Option (List Char × List Char)
  | 0, _ => none
  | _ + 1, [] => none
  | fuel + 1, c :: rest =>
    if c = '"' then some ([], rest)
    else if c = '\\' then
      match pEsc rest with
      | some (d, r2) => (pStrBody fuel r2).map (fun p => (d :: p.1, p.2))
      | none => none
    else (pStrBody fuel rest).map (fun p => (c :: p.1, p.2))

/-- JSON whitespace. -/
def isJsonWs (c : Char) : Bool :=
  (c == ' ') || (c == '\t') || (c == '\n') || (c == '\r')

/-- Drop leading JSON whitespace. -/
def skipWs (l : List Char) : List Char := l.dropWhile isJsonWs

/-- Parse a JSON number (sign already handled by the caller): an integer
when no decimal point is present, otherwise a float. -/
def pNumber (cs : List Char) : Option (PyVal × List Char) :=
  match numCore cs with
  | some ((v, 0), r) => some (.vInt (v : Int), r)
  | some ((v, e), r) => some (.vFloat (canonizeF (v : Int) e), r)
  | none => none

/-- Negate a parsed number (for a leading minus sign). -/
def negNum : PyVal → PyVal
  | .vInt n => .vInt (-n)
  | .vFloat f => .vFloat (negFloat f)
  | v => v

/-- Parse the tail of the literal `null`. -/
def pLitNull : List Char → Option (PyVal × List Char)
  | 'u' :: 'l' :: 'l' :: r => some (.vNone, r)
  | _ => none

/-- Parse the tail of the literal `true`. -/
def pLitTrue : List Char → Option (PyVal × List Char)
  | 'r' :: 'u' :: 'e' :: r => some (.vBool true, r)
  | _ => none

/-- Parse the tail of the literal `false`. -/
def pLitFalse : List Char → Option (PyVal × List Char)
  | 'a' :: 'l' :: 's' :: 'e' :: r => some (.vBool false, r)
  | _ => none

mutual

/-- Parse one JSON value. -/
def pValue : Nat → List Char → Option (PyVal × List Char)
  | 0, _ => none
  | _ + 1, [] => none
  | fuel + 1, c :: rest =>
    if c = 'n' then pLitNull rest
    else if c = 't' then pLitTrue rest
    else if c = 'f' then pLitFalse rest
    else if c = '"' then
      (pStrBody fuel rest).map (fun p => (PyVal.vStr ⟨p.1⟩, p.2))
    else if c = '[' then
      match skipWs rest with
      | ']' :: r => some (.vList [], r)
      | cs2 => (pItems fuel cs2).map (fun p => (PyVal.vList p.1, p.2))
    else if c = '-' then
      (pNumber rest).map (fun p => (negNum p.1, p.2))
    else if c.isDigit then pNumber (c :: rest)
    else none

/-- Parse one or more array items followed by the closing bracket. -/
def pItems : Nat → List Char → Option (List PyVal × List Char)
  | 0, _ => none
  | fuel + 1, cs =>
    match pValue fuel cs with
    | some (v, r) =>
      match skipWs r with
      | ',' :: r2 => (pItems fuel (skipWs r2)).map (fun p => (v :: p.1, p.2))
      | ']' :: r2 => some ([v], r2)
      | _ => none
    | none => none

end

/-- Model of `json.loads(s)`, restricted as described above; `none` models a
raised `ValueError`. -/
def jsonLoads (s : String) : Option PyVal :=
  match pValue (s.data.length + 2) (skipWs s.data) with
  | some (v, r) => if (skipWs r).isEmpty then some v else none
  | none => none

theorem hexVal_hexDigitChar {d : Nat} (h : d < 16) : hexVal (hexDigitChar d) = some d := by
  interval_cases d <;> decide

theorem combineHex_digits (x : Nat) (hx : x < 65536) :
    combineHex (x / 4096 % 16) (x / 256 % 16) (x / 16 % 16) (x % 16) = x := by
  rw [combineHex]
  omega

theorem pHex4Esc_hex4 {x : Nat} (hx : x < 65536)
    (hs1 : ¬(55296 ≤ x ∧ x < 56320)) (hs2 : ¬(56320 ≤ x ∧ x < 57344))
    (rest : List Char) :
    pHex4Esc (hex4 x ++ rest) = some (Char.ofNat x, rest) := by
  have ha : x / 4096 % 16 < 16 := Nat.mod_lt _ (by omega)
  have hb : x / 256 % 16 < 16 := Nat.mod_lt _ (by omega)
  have hc : x / 16 % 16 < 16 := Nat.mod_lt _ (by omega)
  have hd : x % 16 < 16 := Nat.mod_lt _ (by omega)
  show pHex4Esc (hexDigitChar (x / 4096 % 16) :: hexDigitChar (x / 256 % 16) ::
    hexDigitChar (x / 16 % 16) :: hexDigitChar (x % 16) :: rest) = _
  rw [pHex4Esc, hexVal_hexDigitChar ha, hexVal_hexDigitChar hb,
    hexVal_hexDigitChar hc, hexVal_hexDigitChar hd]
  show (if 55296 ≤ combineHex (x / 4096 % 16) (x / 256 % 16) (x / 16 % 16) (x % 16) ∧
      combineHex (x / 4096 % 16) (x / 256 % 16) (x / 16 % 16) (x % 16) < 56320 then
      pSurrogate (combineHex (x / 4096 % 16) (x / 256 % 16) (x / 16 % 16) (x % 16)) rest
    else if 56320 ≤ combineHex (x / 4096 % 16) (x / 256 % 16) (x / 16 % 16) (x % 16) ∧
      combineHex (x / 4096 % 16) (x / 256 % 16) (x / 16 % 16) (x % 16) < 57344 then none
    else some (Char.ofNat (combineHex (x / 4096 % 16) (x / 256 % 16) (x / 16 % 16) (x % 16)),
      rest)) = _
  rw [combineHex_digits x hx, if_neg hs1, if_neg hs2]

theorem pSurrogate_hex4 {hi lo : Nat} (hlo1 : 56320 ≤ lo) (hlo2 : lo < 57344)
    (hlo3 : lo < 65536) (rest : List Char) :
    pSurrogate hi ('\\' :: 'u' :: hex4 lo ++ rest) =
      some (Char.ofNat (65536 + (hi - 55296) * 1024 + (lo - 56320)), rest) := by
  have ha : lo / 4096 % 16 < 16 := Nat.mod_lt _ (by omega)
  have hb : lo / 256 % 16 < 16 := Nat.mod_lt _ (by omega)
  have hc : lo / 16 % 16 < 16 := Nat.mod_lt _ (by omega)
  have hd : lo % 16 < 16 := Nat.mod_lt _ (by omega)
  show pSurrogate hi ('\\' :: 'u' :: hexDigitChar (lo / 4096 % 16) ::
    hexDigitChar (lo / 256 % 16) :: hexDigitChar (lo / 16 % 16) ::
    hexDigitChar (lo % 16) :: rest) = _
  rw [pSurrogate, hexVal_hexDigitChar ha, hexVal_hexDigitChar hb,
    hexVal_hexDigitChar hc, hexVal_hexDigitChar hd]
  show (if 56320 ≤ combineHex (lo / 4096 % 16) (lo / 256 % 16) (lo / 16 % 16) (lo % 16) ∧
      combineHex (lo / 4096 % 16) (lo / 256 % 16) (lo / 16 % 16) (lo % 16) < 57344 then
      some (Char.ofNat (65536 + (hi - 55296) * 1024 +
        (combineHex (lo / 4096 % 16) (lo / 256 % 16) (lo / 16 % 16) (lo % 16) - 56320)), rest)
    else none) = _
  rw [combineHex_digits lo hlo3, if_pos ⟨hlo1, hlo2⟩]

theorem pHex4Esc_pair {x : Nat} (hx1 : 65536 ≤ x) (hx2 : x < 1114112)
    (tail : List Char) :
    pHex4Esc (hex4 (55296 + (x - 65536) / 1024) ++
      ('\\' :: 'u' :: (hex4 (56320 + (x - 65536) % 1024) ++ tail))) =
      some (Char.ofNat x, tail) := by
  have hhi : 55296 + (x - 65536) / 1024 < 65536 := by omega
  have ha : (55296 + (x - 65536) / 1024) / 4096 % 16 < 16 := Nat.mod_lt _ (by omega)
  have hb : (55296 + (x - 65536) / 1024) / 256 % 16 < 16 := Nat.mod_lt _ (by omega)
  have hc : (55296 + (x - 65536) / 1024) / 16 % 16 < 16 := Nat.mod_lt _ (by omega)
  have hd : (55296 + (x - 65536) / 1024) % 16 < 16 := Nat.mod_lt _ (by omega)
  show pHex4Esc (hexDigitChar ((55296 + (x - 65536) / 1024) / 4096 % 16) ::
    hexDigitChar ((55296 + (x - 65536) / 1024) / 256 % 16) ::
    hexDigitChar ((55296 + (x - 65536) / 1024) / 16 % 16) ::
    hexDigitChar ((55296 + (x - 65536) / 1024) % 16) ::
    ('\\' :: 'u' :: (hex4 (56320 + (x - 65536) % 1024) ++ tail))) = _
  rw [pHex4Esc, hexVal_hexDigitChar ha, hexVal_hexDigitChar hb,
    hexVal_hexDigitChar hc, hexVal_hexDigitChar hd]
  show (if 55296 ≤ combineHex ((55296 + (x - 65536) / 1024) / 4096 % 16)
      ((55296 + (x - 65536) / 1024) / 256 % 16) ((55296 + (x - 65536) / 1024) / 16 % 16)
      ((55296 + (x - 65536) / 1024) % 16) ∧
      combineHex ((55296 + (x - 65536) / 1024) / 4096 % 16)
      ((55296 + (x - 65536) / 1024) / 256 % 16) ((55296 + (x - 65536) / 1024) / 16 % 16)
      ((55296 + (x - 65536) / 1024) % 16) < 56320 then
      pSurrogate (combineHex ((55296 + (x - 65536) / 1024) / 4096 % 16)
        ((55296 + (x - 65536) / 1024) / 256 % 16) ((55296 + (x - 65536) / 1024) / 16 % 16)
        ((55296 + (x - 65536) / 1024) % 16))
        ('\\' :: 'u' :: (hex4 (56320 + (x - 65536) % 1024) ++ tail))
    else if 56320 ≤ combineHex ((55296 + (x - 65536) / 1024) / 4096 % 16)
      ((55296 + (x - 65536) / 1024) / 256 % 16) ((55296 + (x - 65536) / 1024) / 16 % 16)
      ((55296 + (x - 65536) / 1024) % 16) ∧
      combineHex ((55296 + (x - 65536) / 1024) / 4096 % 16)
      ((55296 + (x - 65536) / 1024) / 256 % 16) ((55296 + (x - 65536) / 1024) / 16 % 16)
      ((55296 + (x - 65536) / 1024) % 16) < 57344 then none
    else some (Char.ofNat (combineHex ((55296 + (x - 65536) / 1024) / 4096 % 16)
      ((55296 + (x - 65536) / 1024) / 256 % 16) ((55296 + (x - 65536) / 1024) / 16 % 16)
      ((55296 + (x - 65536) / 1024) % 16)),
      '\\' :: 'u' :: (hex4 (56320 + (x - 65536) % 1024) ++ tail))) = _
  rw [combineHex_digits _ hhi, if_pos (by omega : 55296 ≤ 55296 + (x - 65536) / 1024 ∧
    55296 + (x - 65536) / 1024 < 56320)]
  show pSurrogate (55296 + (x - 65536) / 1024)
    ('\\' :: 'u' :: hex4 (56320 + (x - 65536) % 1024) ++ tail) = some (Char.ofNat x, tail)
  rw [pSurrogate_hex4 (by omega) (by omega) (by omega) tail]
  have harith : 65536 + (55296 + (x - 65536) / 1024 - 55296) * 1024 +
      (56320 + (x - 65536) % 1024 - 56320) = x := by omega
  rw [harith]

theorem pEsc_u (r : List Char) : pEsc ('u' :: r) = pHex4Esc r := rfl

theorem pStrBody_backslash (fuel : Nat) (rest tail : List Char) (c : Char)
    (hesc : pEsc rest = some (c, tail)) :
    pStrBody (fuel + 1) ('\\' :: rest) =
      (pStrBody fuel tail).map (fun p => (c :: p.1, p.2)) := by
  rw [pStrBody, if_neg (by decide), if_pos rfl, hesc]

theorem pStrBody_plain (fuel : Nat) (c : Char) (tail : List Char)
    (h1 : ¬c = '"') (h2 : ¬c = '\\') :
    pStrBody (fuel + 1) (c :: tail) =
      (pStrBody fuel tail).map (fun p => (c :: p.1, p.2)) := by
  rw [pStrBody, if_neg h1, if_neg h2]

theorem pStrBody_escChar (c : Char) (tail : List Char) (fuel : Nat) :
    pStrBody (fuel + 1) (escChar c ++ tail) =
      (pStrBody fuel tail).map (fun p => (c :: p.1, p.2)) := by
  have hv : c.toNat < 55296 ∨ (57343 < c.toNat ∧ c.toNat < 1114112) := c.valid
  rw [escChar]
  by_cases h1 : c = '"'
  · subst h1
    rw [if_pos rfl]
    exact pStrBody_backslash fuel ('"' :: tail) tail '"' rfl
  · rw [if_neg h1]
    by_cases h2 : c = '\\'
    · subst h2
      rw [if_pos rfl]
      exact pStrBody_backslash fuel ('\\' :: tail) tail '\\' rfl
    · rw [if_neg h2]
      by_cases h3 : c = '\n'
      · subst h3
        rw [if_pos rfl]
        exact pStrBody_backslash fuel ('n' :: tail) tail '\n' rfl
      · rw [if_neg h3]
        by_cases h4 : c = '\t'
        · subst h4
          rw [if_pos rfl]
          exact pStrBody_backslash fuel ('t' :: tail) tail '\t' rfl
        · rw [if_neg h4]
          by_cases h5 : c = '\r'
          · subst h5
            rw [if_pos rfl]
            exact pStrBody_backslash fuel ('r' :: tail) tail '\r' rfl
          · rw [if_neg h5]
            by_cases h6 : c.toNat = 8
            · have hc8 : c = Char.ofNat 8 := by rw [← h6, Char.ofNat_toNat]
              subst hc8
              rw [if_pos h6]
              exact pStrBody_backslash fuel ('b' :: tail) tail (Char.ofNat 8) rfl
            · rw [if_neg h6]
              by_cases h7 : c.toNat = 12
              · have hc12 : c = Char.ofNat 12 := by rw [← h7, Char.ofNat_toNat]
                subst hc12
                rw [if_pos h7]
                exact pStrBody_backslash fuel ('f' :: tail) tail (Char.ofNat 12) rfl
              · rw [if_neg h7]
                by_cases h8 : 32 ≤ c.toNat ∧ c.toNat ≤ 126
                · rw [if_pos h8]
                  exact pStrBody_plain fuel c tail h1 h2
                · rw [if_neg h8]
                  by_cases h9 : c.toNat < 65536
                  · rw [if_pos h9]
                    have hpe : pEsc ('u' :: (hex4 c.toNat ++ tail)) =
                        some (Char.ofNat c.toNat, tail) := by
                      rw [pEsc_u]
                      refine pHex4Esc_hex4 h9 ?_ ?_ tail
                      · rcases hv with hlt | ⟨hgt, _⟩
                        · omega
                        · omega
                      · rcases hv with hlt | ⟨hgt, _⟩
                        · omega
                        · omega
                    have hr := pStrBody_backslash fuel ('u' :: (hex4 c.toNat ++ tail)) tail
                      (Char.ofNat c.toNat) hpe
                    rw [Char.ofNat_toNat] at hr
                    exact hr
                  · rw [if_neg h9]
                    have hx1 : 65536 ≤ c.toNat := by omega
                    have hx2 : c.toNat < 1114112 := by
                      rcases hv with hlt | ⟨_, hub⟩
                      · omega
                      · omega
                    have hpe : pEsc ('u' :: (hex4 (55296 + (c.toNat - 65536) / 1024) ++
                        ('\\' :: 'u' :: (hex4 (56320 + (c.toNat - 65536) % 1024) ++ tail)))) =
                        some (Char.ofNat c.toNat, tail) := by
                      rw [pEsc_u]
                      exact pHex4Esc_pair hx1 hx2 tail
                    have hr := pStrBody_backslash fuel
                      ('u' :: (hex4 (55296 + (c.toNat - 65536) / 1024) ++
                        ('\\' :: 'u' :: (hex4 (56320 + (c.toNat - 65536) % 1024) ++ tail))))
                      tail (Char.ofNat c.toNat) hpe
                    rw [Char.ofNat_toNat] at hr
                    exact hr

theorem escString_cons (c : Char) (t : List Char) :
    escString (c :: t) = escChar c ++ escString t := by
  simp [escString]

theorem pStrBody_escString (s : List Char) : ∀ fuel rest, s.length + 1 ≤ fuel →
    pStrBody fuel (escString s ++ '"' :: rest) = some (s, rest) := by
  induction s with
  | nil =>
    intro fuel rest hf
    match fuel, hf with
    | fuel + 1, _ =>
      show pStrBody (fuel + 1) ('"' :: rest) = some ([], rest)
      rw [pStrBody, if_pos rfl]
  | cons c t ih =>
    intro fuel rest hf
    match fuel, hf with
    | fuel + 1, hf =>
      rw [escString_cons]
      have hassoc : (escChar c ++ escString t) ++ '"' :: rest =
          escChar c ++ (escString t ++ '"' :: rest) := by
        rw [List.append_assoc]
      rw [hassoc, pStrBody_escChar, ih fuel rest (by
        simp only [List.length_cons] at hf
        omega)]
      rfl

theorem escChar_length_pos (c : Char) : 1 ≤ (escChar c).length := by
  rw [escChar]
  repeat' split
  all_goals simp [hex4]

theorem escString_length (s : List Char) : s.length ≤ (escString s).length := by
  induction s with
  | nil => simp [escString]
  | cons c t ih =>
    rw [escString_cons, List.length_append, List.length_cons]
    have := escChar_length_pos c
    omega

theorem isJsonWs_eq_false {c : Char} (h1 : c ≠ ' ') (h2 : c ≠ '\t') (h3 : c ≠ '\n')
    (h4 : c ≠ '\r') : isJsonWs c = false := by
  simp [isJsonWs, h1, h2, h3, h4]

theorem isDigit_not_ws {c : Char} (h : c.isDigit = true) : isJsonWs c = false := by
  refine isJsonWs_eq_false ?_ ?_ ?_ ?_ <;>
    (intro hc; subst hc; exact absurd h (by decide))

theorem isDigit_dispatch {c : Char} (h : c.isDigit = true) :
    ¬c = 'n' ∧ ¬c = 't' ∧ ¬c = 'f' ∧ ¬c = '"' ∧ ¬c = '[' ∧ ¬c = '-' ∧ ¬c = ']' := by
  refine ⟨?_, ?_, ?_, ?_, ?_, ?_, ?_⟩ <;>
    (intro hc; subst hc; exact absurd h (by decide))

theorem skipWs_cons_false {c : Char} {t : List Char} (h : isJsonWs c = false) :
    skipWs (c :: t) = c :: t := by
  simp [skipWs, List.dropWhile_cons, h]

theorem skipWs_cons_space (t : List Char) : skipWs (' ' :: t) = skipWs t := by
  simp [skipWs, List.dropWhile_cons]
  intro hc
  exact absurd hc (by decide)

theorem numCore_natChars (a : Nat) (rest : List Char) (hb : NumBoundary rest) :
    numCore (natChars a ++ rest) = some ((a, 0), rest) := by
  have h1 := takeWhile_append_all Char.isDigit (natChars a) rest (natChars_all_digits a)
    (by match rest, hb with
        | [], _ => exact trivial
        | c :: t, hb => exact hb.1)
  rw [numCore, h1.1, h1.2, if_neg (isEmpty_false_of_ne_nil (natChars_ne_nil a))]
  match rest, hb with
  | [], _ =>
    show some ((charsToNat (natChars a), 0), ([] : List Char)) = _
    rw [charsToNat_natChars]
  | c :: t, hb =>
    split
    · rename_i r2 heq
      rw [List.cons.injEq] at heq
      exact absurd heq.1 hb.2
    · rw [charsToNat_natChars]

theorem pNumber_natChars (a : Nat) (rest : List Char) (hb : NumBoundary rest) :
    pNumber (natChars a ++ rest) = some (.vInt (a : Int), rest) := by
  rw [pNumber, numCore_natChars a rest hb]

theorem pNumber_unsigned (a e : Nat) (rest : List Char) (hb : NumBoundary rest) :
    pNumber (unsignedFloatChars a e ++ rest) =
      some (.vFloat (canonizeF (((if e = 0 then 10 * a else a : Nat)) : Int)
        (if e = 0 then 1 else e)), rest) := by
  rw [pNumber, numCore_unsigned a e rest hb]
  by_cases he : e = 0
  · subst he
    rfl
  · obtain ⟨e', rfl⟩ : ∃ e', e = e' + 1 := ⟨e - 1, by omega⟩
    rw [if_neg he, if_neg he]
    rfl

theorem negFloat_canonizeF (x : Int) (e : Nat) :
    negFloat (canonizeF x e) = canonizeF (-x) e := by
  induction e generalizing x with
  | zero => rfl
  | succ e ih =>
    rw [canonizeF_succ, canonizeF_succ]
    by_cases hd : x % 10 = 0
    · rw [dif_pos hd, dif_pos (by omega : (-x) % 10 = 0), ih]
      congr 1
      omega
    · rw [dif_neg hd, dif_neg (by omega : ¬(-x) % 10 = 0)]
      rfl

theorem canonizeF_natAbs (m : Int) (e : Nat) (hc : FloatCanon (m, e)) (hm : 0 ≤ m) :
    canonizeF (((if e = 0 then 10 * m.natAbs else m.natAbs : Nat)) : Int)
      (if e = 0 then 1 else e) = ⟨(m, e), hc⟩ := by
  by_cases he : e = 0
  · subst he
    rw [if_pos rfl, if_pos rfl]
    have hcast : (((10 * m.natAbs : Nat)) : Int) = 10 * m := by omega
    rw [hcast, canonizeF_mul10]
    rfl
  · rw [if_neg he, if_neg he]
    have hcast : ((m.natAbs : Nat) : Int) = m := by omega
    rw [hcast, canonizeF_self hc]

theorem canonizeF_natAbs_neg (m : Int) (e : Nat) (hc : FloatCanon (m, e)) (hm : m < 0) :
    canonizeF (-(((if e = 0 then 10 * m.natAbs else m.natAbs : Nat)) : Int))
      (if e = 0 then 1 else e) = ⟨(m, e), hc⟩ := by
  by_cases he : e = 0
  · subst he
    rw [if_pos rfl, if_pos rfl]
    have hcast : (-((10 * m.natAbs : Nat) : Int)) = 10 * m := by omega
    rw [hcast, canonizeF_mul10]
    rfl
  · rw [if_neg he, if_neg he]
    have hcast : (-((m.natAbs : Nat) : Int)) = m := by omega
    rw [hcast, canonizeF_self hc]

theorem dumps_head {v : PyVal} {cs : List Char} (h : jsonDumpsChars v = some cs) :
    ∃ c t, cs = c :: t ∧ isJsonWs c = false ∧ c ≠ ']' := by
  cases v with
  | vStr s =>
    rw [jsonDumpsChars] at h
    obtain rfl : ('"' :: (escString s.data ++ ['"'])) = cs := Option.some.inj h
    exact ⟨_, _, rfl, by decide, by decide⟩
  | vInt n =>
    rw [jsonDumpsChars] at h
    obtain rfl : intChars n = cs := Option.some.inj h
    by_cases hn : n < 0
    · rw [intChars, if_pos hn]
      exact ⟨_, _, rfl, by decide, by decide⟩
    · rw [intChars, if_neg hn]
      obtain ⟨c, t, hct⟩ : ∃ c t, natChars n.toNat = c :: t := by
        match hx : natChars n.toNat with
        | [] => exact absurd hx (natChars_ne_nil _)
        | c :: t => exact ⟨c, t, rfl⟩
      have hd := head_natChars_isDigit hct
      exact ⟨c, t, hct, isDigit_not_ws hd, (isDigit_dispatch hd).2.2.2.2.2.2⟩
  | vFloat f =>
    rw [jsonDumpsChars] at h
    obtain rfl : floatChars f = cs := Option.some.inj h
    rw [floatChars]
    by_cases hm : f.val.1 < 0
    · rw [if_pos hm]
      exact ⟨_, _, rfl, by decide, by decide⟩
    · rw [if_neg hm]
      obtain ⟨c, t, hct, hd⟩ := unsigned_head f.val.1.natAbs f.val.2
      refine ⟨c, t, ?_, isDigit_not_ws hd, (isDigit_dispatch hd).2.2.2.2.2.2⟩
      rw [hct]
      rfl
  | vBool b =>
    rw [jsonDumpsChars] at h
    obtain rfl := Option.some.inj h
    cases b
    · exact ⟨_, _, rfl, by decide, by decide⟩
    · exact ⟨_, _, rfl, by decide, by decide⟩
  | vNone =>
    rw [jsonDumpsChars] at h
    obtain rfl := Option.some.inj h
    exact ⟨_, _, rfl, by decide, by decide⟩
  | vList l =>
    rw [jsonDumpsChars] at h
    cases hdl : jsonDumpsList l with
    | none => rw [hdl] at h; exact absurd h (by simp)
    | some inner =>
      rw [hdl] at h
      obtain rfl : ('[' :: (inner ++ [']'])) = cs := Option.some.inj h
      exact ⟨_, _, rfl, by decide, by decide⟩
  | vDict entries =>
    rw [jsonDumpsChars] at h
    exact absurd h (by simp)

theorem dumpsList_head {v : PyVal} {vs : List PyVal} {dls : List Char}
    (h : jsonDumpsList (v :: vs) = some dls) :
    ∃ c t, dls = c :: t ∧ isJsonWs c = false ∧ c ≠ ']' := by
  cases vs with
  | nil =>
    rw [jsonDumpsList] at h
    exact dumps_head h
  | cons v2 vs' =>
    have hlist : jsonDumpsList (v :: v2 :: vs') =
        match jsonDumpsChars v, jsonDumpsList (v2 :: vs') with
        | some a, some b => some (a ++ ',' :: ' ' :: b)
        | _, _ => none := rfl
    rw [hlist] at h
    cases hd1 : jsonDumpsChars v with
    | none => rw [hd1] at h; exact absurd h (by simp)
    | some d1 =>
      rw [hd1] at h
      cases hd2 : jsonDumpsList (v2 :: vs') with
      | none => rw [hd2] at h; exact absurd h (by simp)
      | some b =>
        rw [hd2] at h
        obtain rfl : (d1 ++ ',' :: ' ' :: b) = dls := Option.some.inj h
        obtain ⟨c, t, hct, hws, hbr⟩ := dumps_head hd1
        refine ⟨c, t ++ ',' :: ' ' :: b, ?_, hws, hbr⟩
        rw [hct]
        rfl

theorem pValue_null (fu : Nat) (r : List Char) :
    pValue (fu + 1) ('n' :: 'u' :: 'l' :: 'l' :: r) = some (.vNone, r) := by
  rw [pValue, if_pos rfl]
  rfl

theorem pValue_true (fu : Nat) (r : List Char) :
    pValue (fu + 1) ('t' :: 'r' :: 'u' :: 'e' :: r) = some (.vBool true, r) := by
  rw [pValue, if_neg (by decide), if_pos rfl]
  rfl

theorem pValue_false (fu : Nat) (r : List Char) :
    pValue (fu + 1) ('f' :: 'a' :: 'l' :: 's' :: 'e' :: r) = some (.vBool false, r) := by
  rw [pValue, if_neg (by decide), if_neg (by decide), if_pos rfl]
  rfl

theorem pValue_quote (fu : Nat) (rest : List Char) :
    pValue (fu + 1) ('"' :: rest) =
      (pStrBody fu rest).map (fun p => (PyVal.vStr ⟨p.1⟩, p.2)) := by
  rw [pValue, if_neg (by decide), if_neg (by decide), if_neg (by decide), if_pos rfl]

theorem pValue_neg (fu : Nat) (rest : List Char) :
    pValue (fu + 1) ('-' :: rest) =
      (pNumber rest).map (fun p => (negNum p.1, p.2)) := by
  rw [pValue, if_neg (by decide), if_neg (by decide), if_neg (by decide),
    if_neg (by decide), if_neg (by decide), if_pos rfl]

theorem pValue_digit (fu : Nat) (c : Char) (rest : List Char) (h : c.isDigit = true) :
    pValue (fu + 1) (c :: rest) = pNumber (c :: rest) := by
  obtain ⟨h1, h2, h3, h4, h5, h6, _⟩ := isDigit_dispatch h
  rw [pValue, if_neg h1, if_neg h2, if_neg h3, if_neg h4, if_neg h5, if_neg h6, if_pos h]

theorem pValue_bracket_empty (fu : Nat) (rest r : List Char)
    (h : skipWs rest = ']' :: r) :
    pValue (fu + 1) ('[' :: rest) = some (.vList [], r) := by
  rw [pValue, if_neg (by decide), if_neg (by decide), if_neg (by decide),
    if_neg (by decide), if_pos rfl, h]
  rfl

theorem pValue_bracket_items (fu : Nat) (rest : List Char) (c : Char) (t : List Char)
    (h : skipWs rest = c :: t) (hne : c ≠ ']') :
    pValue (fu + 1) ('[' :: rest) =
      (pItems fu (c :: t)).map (fun p => (PyVal.vList p.1, p.2)) := by
  rw [pValue, if_neg (by decide), if_neg (by decide), if_neg (by decide),
    if_neg (by decide), if_pos rfl, h]
  split
  · rename_i r2 heq
    rw [List.cons.injEq] at heq
    exact absurd heq.1 hne
  · rfl

theorem pItems_unfold (fu : Nat) (cs : List Char) :
    pItems (fu + 1) cs =
      match pValue fu cs with
      | some (v, r) =>
        match skipWs r with
        | ',' :: r2 => (pItems fu (skipWs r2)).map (fun p => (v :: p.1, p.2))
        | ']' :: r2 => some ([v], r2)
        | _ => none
      | none => none := by
  rw [pItems]

theorem parse_dumps : ∀ fuel : Nat,
    (∀ v cs rest, jsonDumpsChars v = some cs → cs.length + 1 ≤ fuel → NumBoundary rest →
      pValue fuel (cs ++ rest) = some (v, rest)) ∧
    (∀ l inner rest, jsonDumpsList l = some inner → l ≠ [] → inner.length + 2 ≤ fuel →
      pItems fuel (inner ++ ']' :: rest) = some (l, rest)) := by
  intro fuel
  induction fuel using Nat.strong_induction_on with
  | _ fuel ih =>
    constructor
    · intro v cs rest hdump hlen hb
      match fuel, hlen with
      | fu + 1, hlen =>
        cases v with
        | vStr s =>
          rw [jsonDumpsChars] at hdump
          obtain rfl := Option.some.inj hdump
          have hlen2 : s.data.length + 1 ≤ fu := by
            have h1 := escString_length s.data
            simp only [List.length_cons, List.length_append, List.length_singleton] at hlen
            omega
          have hsh : ('"' :: (escString s.data ++ ['"'])) ++ rest =
              '"' :: (escString s.data ++ '"' :: rest) := by simp
          rw [hsh, pValue_quote, pStrBody_escString s.data fu rest hlen2]
          rfl
        | vInt n =>
          rw [jsonDumpsChars] at hdump
          obtain rfl := Option.some.inj hdump
          by_cases hn : n < 0
          · rw [intChars, if_pos hn]
            show pValue (fu + 1) ('-' :: (natChars n.natAbs ++ rest)) = _
            rw [pValue_neg, pNumber_natChars n.natAbs rest hb]
            show some (PyVal.vInt (-((n.natAbs : Nat) : Int)), rest) = _
            have hcast : -((n.natAbs : Nat) : Int) = n := by omega
            rw [hcast]
          · rw [intChars, if_neg hn]
            obtain ⟨c, t, hct⟩ : ∃ c t, natChars n.toNat = c :: t := by
              match hx : natChars n.toNat with
              | [] => exact absurd hx (natChars_ne_nil _)
              | c :: t => exact ⟨c, t, rfl⟩
            have hd := head_natChars_isDigit hct
            rw [hct]
            show pValue (fu + 1) (c :: (t ++ rest)) = _
            rw [pValue_digit fu c (t ++ rest) hd]
            show pNumber ((c :: t) ++ rest) = _
            rw [← hct, pNumber_natChars n.toNat rest hb]
            have hcast : ((n.toNat : Nat) : Int) = n := by omega
            rw [hcast]
        | vFloat f =>
          rw [jsonDumpsChars] at hdump
          obtain rfl := Option.some.inj hdump
          obtain ⟨⟨m, e⟩, hc⟩ := f
          by_cases hm : m < 0
          · have hfc : floatChars ⟨(m, e), hc⟩ = '-' :: unsignedFloatChars m.natAbs e := by
              rw [floatChars]
              show (if m < 0 then ['-'] else []) ++ _ = _
              rw [if_pos hm]
              rfl
            rw [hfc]
            show pValue (fu + 1) ('-' :: (unsignedFloatChars m.natAbs e ++ rest)) = _
            rw [pValue_neg, pNumber_unsigned m.natAbs e rest hb]
            show some (PyVal.vFloat (negFloat (canonizeF
              (((if e = 0 then 10 * m.natAbs else m.natAbs : Nat)) : Int)
              (if e = 0 then 1 else e))), rest) = _
            rw [negFloat_canonizeF, canonizeF_natAbs_neg m e hc hm]
          · have hfc : floatChars ⟨(m, e), hc⟩ = unsignedFloatChars m.natAbs e := by
              rw [floatChars]
              show (if m < 0 then ['-'] else []) ++ _ = _
              rw [if_neg hm]
              rfl
            rw [hfc]
            obtain ⟨c, t, hct, hd⟩ := unsigned_head m.natAbs e
            rw [hct]
            show pValue (fu + 1) (c :: (t ++ rest)) = _
            rw [pValue_digit fu c (t ++ rest) hd]
            show pNumber ((c :: t) ++ rest) = _
            rw [← hct, pNumber_unsigned m.natAbs e rest hb,
              canonizeF_natAbs m e hc (by omega)]
        | vBool b =>
          cases b
          · rw [jsonDumpsChars] at hdump
            obtain rfl := Option.some.inj hdump
            show pValue (fu + 1) ('f' :: 'a' :: 'l' :: 's' :: 'e' :: rest) = _
            exact pValue_false fu rest
          · rw [jsonDumpsChars] at hdump
            obtain rfl := Option.some.inj hdump
            show pValue (fu + 1) ('t' :: 'r' :: 'u' :: 'e' :: rest) = _
            exact pValue_true fu rest
        | vNone =>
          rw [jsonDumpsChars] at hdump
          obtain rfl := Option.some.inj hdump
          show pValue (fu + 1) ('n' :: 'u' :: 'l' :: 'l' :: rest) = _
          exact pValue_null fu rest
        | vList l =>
          rw [jsonDumpsChars] at hdump
          cases hdl : jsonDumpsList l with
          | none => rw [hdl] at hdump; exact absurd hdump (by simp)
          | some inner =>
            rw [hdl] at hdump
            obtain rfl := Option.some.inj hdump
            cases l with
            | nil =>
              rw [jsonDumpsList] at hdl
              obtain rfl : ([] : List Char) = inner := Option.some.inj hdl
              show pValue (fu + 1) ('[' :: (']' :: rest)) = some (PyVal.vList [], rest)
              exact pValue_bracket_empty fu (']' :: rest) rest (skipWs_cons_false (by decide))
            | cons e1 ls =>
              obtain ⟨ch, ct, hct, hws, hbr⟩ := dumpsList_head hdl
              have hsh : ('[' :: (inner ++ [']'])) ++ rest =
                  '[' :: (inner ++ ']' :: rest) := by simp
              rw [hsh]
              have hskip : skipWs (inner ++ ']' :: rest) = ch :: (ct ++ ']' :: rest) := by
                rw [hct]
                show skipWs (ch :: (ct ++ ']' :: rest)) = _
                rw [skipWs_cons_false hws]
              rw [pValue_bracket_items fu (inner ++ ']' :: rest) ch (ct ++ ']' :: rest)
                hskip hbr]
              have hback : ch :: (ct ++ ']' :: rest) = inner ++ ']' :: rest := by
                rw [hct]
                rfl
              rw [hback]
              have hlen3 : inner.length + 2 ≤ fu := by
                simp only [List.length_cons, List.length_append, List.length_singleton] at hlen
                omega
              rw [(ih fu (by omega)).2 (e1 :: ls) inner rest hdl (by simp) hlen3]
              rfl
        | vDict entries =>
          rw [jsonDumpsChars] at hdump
          exact absurd hdump (by simp)
    · intro l inner rest hdump hne hlen
      match fuel, hlen with
      | fu + 1, hlen =>
        match l, hne with
        | e1 :: ls, _ =>
          cases ls with
          | nil =>
            rw [jsonDumpsList] at hdump
            rw [pItems_unfold]
            have hb2 : NumBoundary (']' :: rest) := ⟨by decide, by decide⟩
            have hlen2 : inner.length + 1 ≤ fu := by omega
            rw [(ih fu (by omega)).1 e1 inner (']' :: rest) hdump hlen2 hb2]
            show (match skipWs (']' :: rest) with
              | ',' :: r2 => (pItems fu (skipWs r2)).map (fun p => (e1 :: p.1, p.2))
              | ']' :: r2 => some ([e1], r2)
              | _ => none) = some ([e1], rest)
            rw [skipWs_cons_false (by decide)]
            rfl
          | cons e2 ls' =>
            have hlist : jsonDumpsList (e1 :: e2 :: ls') =
                match jsonDumpsChars e1, jsonDumpsList (e2 :: ls') with
                | some a, some b => some (a ++ ',' :: ' ' :: b)
                | _, _ => none := rfl
            rw [hlist] at hdump
            cases hd1 : jsonDumpsChars e1 with
            | none => rw [hd1] at hdump; exact absurd hdump (by simp)
            | some d1 =>
              rw [hd1] at hdump
              cases hd2 : jsonDumpsList (e2 :: ls') with
              | none => rw [hd2] at hdump; exact absurd hdump (by simp)
              | some dls =>
                rw [hd2] at hdump
                obtain rfl := Option.some.inj hdump
                rw [pItems_unfold]
                have hsh : (d1 ++ ',' :: ' ' :: dls) ++ ']' :: rest =
                    d1 ++ (',' :: ' ' :: (dls ++ ']' :: rest)) := by simp
                rw [hsh]
                have hb2 : NumBoundary (',' :: ' ' :: (dls ++ ']' :: rest)) :=
                  ⟨by decide, by decide⟩
                have hlen1 : d1.length + 1 ≤ fu := by
                  simp only [List.length_append, List.length_cons] at hlen
                  omega
                rw [(ih fu (by omega)).1 e1 d1 _ hd1 hlen1 hb2]
                show (match skipWs (',' :: ' ' :: (dls ++ ']' :: rest)) with
                  | ',' :: r2 => (pItems fu (skipWs r2)).map (fun p => (e1 :: p.1, p.2))
                  | ']' :: r2 => some ([e1], r2)
                  | _ => none) = some (e1 :: e2 :: ls', rest)
                rw [skipWs_cons_false (by decide)]
                show (pItems fu (skipWs (' ' :: (dls ++ ']' :: rest)))).map
                  (fun p => (e1 :: p.1, p.2)) = _
                rw [skipWs_cons_space]
                obtain ⟨c2, t2, hct2, hws2, _⟩ := dumpsList_head hd2
                have hskip2 : skipWs (dls ++ ']' :: rest) = dls ++ ']' :: rest := by
                  have hform : dls ++ ']' :: rest = c2 :: (t2 ++ ']' :: rest) := by
                    rw [hct2]
                    rfl
                  rw [hform, skipWs_cons_false hws2]
                rw [hskip2]
                have hlen3 : dls.length + 2 ≤ fu := by
                  simp only [List.length_append, List.length_cons] at hlen
                  omega
                rw [(ih fu (by omega)).2 (e2 :: ls') dls rest hd2 (by simp) hlen3]
                rfl

/-- Top-level JSON round trip: decoding an encoder output returns the value. -/
theorem jsonLoads_jsonDumps {v : PyVal} {s : String} (h : jsonDumps v = some s) :
    jsonLoads s = some v := by
  rw [jsonDumps] at h
  cases hdc : jsonDumpsChars v with
  | none => rw [hdc] at h; exact absurd h (by simp)
  | some cs =>
    rw [hdc] at h
    obtain rfl : (⟨cs⟩ : String) = s := Option.some.inj h
    show (match pValue (cs.length + 2) (skipWs cs) with
      | some (v, r) => if (skipWs r).isEmpty then some v else none
      | none => none) = some v
    obtain ⟨c, t, hct, hws, _⟩ := dumps_head hdc
    have hskip : skipWs cs = cs := by
      rw [hct]
      exact skipWs_cons_false hws
    rw [hskip]
    have hmain := (parse_dumps (cs.length + 2)).1 v cs [] hdc (by omega) trivial
    rw [List.append_nil] at hmain
    rw [hmain]
    rfl

/-! ## Python dynamic typing for the settings engine -/

/-- The type arguments observable by `_unserialize`/`_serialize`: the builtin
classes the source mentions, `NoneType`, and the builtin `type` itself (which
`SettingsSandbox.get` passes by mistake, see the claims below). -/
inductive PyType where
  | tStr | tInt | tFloat | tBool | tList | tDict | tNone | tType
deriving DecidableEq

/-- Python `isinstance` on the values and classes involved here.  Note that
`isinstance(True, int)` holds in Python (`bool` subclasses `int`), and that
none of these runtime values is an instance of the builtin `type`. -/
def isinstance : PyVal → PyType → Bool
  | .vStr _, .tStr => true
  | .vInt _, .tInt => true
  | .vBool _, .tInt => true
  | .vFloat _, .tFloat => true
  | .vBool _, .tBool => true
  | .vList _, .tList => true
  | .vDict _, .tDict => true
  | .vNone, .tNone => true
  | _, _ => false

/-- Python `type(v)` restricted to this universe. -/
def pyTypeOf : PyVal → PyType
  | .vStr _ => .tStr
  | .vInt _ => .tInt
  | .vFloat _ => .tFloat
  | .vBool _ => .tBool
  | .vList _ => .tList
  | .vDict _ => .tDict
  | .vNone => .tNone

/-- Python `str(type(v))`, as interpolated into the `_serialize` error. -/
def pyTypeRepr : PyVal → String
  | .vStr _ => "<class 'str'>"
  | .vInt _ => "<class 'int'>"
  | .vFloat _ => "<class 'float'>"
  | .vBool _ => "<class 'bool'>"
  | .vList _ => "<class 'list'>"
  | .vDict _ => "<class 'dict'>"
  | .vNone => "<class 'NoneType'>"

/-- Python exceptions the modelled code can raise. -/
inductive PyErr where
  | typeError (msg : String)
  | valueError (msg : String)
deriving DecidableEq

/-- Python `str(value)` for the values `_serialize` passes to `str`. -/
def pyStr : PyVal → String
  | .vStr s => s
  | .vInt n => pyStrOfInt n
  | .vFloat f => pyStrOfFloat f
  | .vBool b => if b then "True" else "False"
  | _ => ""

/-- Truncation toward zero, as Python `int()` applied to a float. -/
def floatTruncInt (f : PyFloat) : Int :=
  if 0 ≤ f.val.1 then f.val.1 / (10 ^ f.val.2 : Int)
  else -((-f.val.1) / (10 ^ f.val.2 : Int))

/-- Model of Python `int(value)` for the argument shapes reachable here. -/
def pyIntFn : PyVal → Except PyErr PyVal
  | .vStr s =>
    match pyIntOfString s with
    | some n => .ok (.vInt n)
    | none => .error (.valueError ("invalid literal for int() with base 10: " ++ s))
  | .vInt n => .ok (.vInt n)
  | .vBool b => .ok (.vInt (if b then 1 else 0))
  | .vFloat f => .ok (.vInt (floatTruncInt f))
  | _ => .error (.typeError "int() argument must be a string or a number")

/-- The canonical zero-exponent float `n.0`. -/
def intToFloat (n : Int) : PyFloat := ⟨(n, 0), fun h => absurd h (Nat.lt_irrefl 0)⟩

/-- Model of Python `float(value)` for the argument shapes reachable here. -/
def pyFloatFn : PyVal → Except PyErr PyVal
  | .vStr s =>
    match pyFloatOfString s with
    | some f => .ok (.vFloat f)
    | none => .error (.valueError ("could not convert string to float: " ++ s))
  | .vInt n => .ok (.vFloat (intToFloat n))
  | .vBool b => .ok (.vFloat (intToFloat (if b then 1 else 0)))
  | .vFloat f => .ok (.vFloat f)
  | _ => .error (.typeError "float() argument must be a string or a number")

/-- Model of `json.loads(value)` as `_unserialize` calls it. -/
def pyJsonLoadsFn : PyVal → Except PyErr PyVal
  | .vStr s =>
    match jsonLoads s with
    | some v => .ok v
    | none => .error (.valueError "Expecting value")
  | _ => .error (.typeError "the JSON object must be str, bytes or bytearray")

/-- Python `value == 'True'`: only the exact string `"True"` compares equal. -/
def eqTrueLit : PyVal → Bool
  | .vStr s => s == "True"
  | _ => false

/-- Model of `SettingsProxy._unserialize(value, as_type)`, branch for branch. -/
def pyUnserialize (value : PyVal) (as_type : PyType) : Except PyErr PyVal :=
  if isinstance value as_type then .ok value
  else if as_type = .tInt then pyIntFn value
  else if as_type = .tFloat then pyFloatFn value
  else if as_type = .tDict ∨ as_type = .tList then pyJsonLoadsFn value
  else if as_type = .tBool then .ok (.vBool (eqTrueLit value))
  else .ok value

/-- Model of `SettingsProxy._serialize(value)`, branch for branch.  The dead
`isinstance(value, bool)` disjunct of the third branch is kept as written in
the source.  `json.dumps` inside the list branch fails only outside the
modelled universe (see `jsonDumpsChars`). -/
def pySerialize (value : PyVal) : Except PyErr String :=
  if isinstance value .tStr then .ok (pyStr value)
  else if isinstance value .tInt || isinstance value .tFloat || isinstance value .tBool then
    .ok (pyStr value)
  else if isinstance value .tList || isinstance value .tBool then
    match jsonDumps value with
    | some s => .ok s
    | none => .error (.typeError "Object is not JSON serializable")
  else
    .error (.typeError ("Unable to serialize " ++ pyTypeRepr value ++ " into a setting."))

/-- The values of the five supported types, with lists restricted to contents
`json.dumps` accepts: exactly the values `set` can persist. -/
def pySupported : PyVal → Bool
  | .vStr _ => true
  | .vInt _ => true
  | .vFloat _ => true
  | .vBool _ => true
  | .vList l => (jsonDumpsList l).isSome
  | _ => false

/-- The guard of the final `else` of `_serialize`: none of the earlier
`isinstance` branches accepted the value. -/
def topUnsupported (v : PyVal) : Bool :=
  !(isinstance v .tStr || isinstance v .tInt || isinstance v .tFloat ||
    isinstance v .tBool || isinstance v .tList)

theorem not_isinstance_true {v : PyVal} {t : PyType} (h : isinstance v t = false) :
    ¬(isinstance v t = true) := by simp [h]

/-- The serialization round-trip law at the value level: unserializing the
persisted string at the value's own type restores the value. -/
theorem pyUnserialize_pySerialize {v : PyVal} {s : String}
    (hsup : pySupported v = true) (hser : pySerialize v = .ok s) :
    pyUnserialize (.vStr s) (pyTypeOf v) = .ok v := by
  cases v with
  | vStr str =>
    have hs : pySerialize (.vStr str) = .ok str := rfl
    rw [hs] at hser
    obtain rfl : str = s := Except.ok.inj hser
    show pyUnserialize (.vStr str) .tStr = .ok (.vStr str)
    rw [pyUnserialize, if_pos (show isinstance (PyVal.vStr str) PyType.tStr = true from rfl)]
  | vInt n =>
    have hs : pySerialize (.vInt n) = .ok (pyStrOfInt n) := rfl
    rw [hs] at hser
    obtain rfl : pyStrOfInt n = s := Except.ok.inj hser
    show pyUnserialize (.vStr (pyStrOfInt n)) .tInt = .ok (.vInt n)
    rw [pyUnserialize, if_neg (by exact not_isinstance_true rfl), if_pos rfl, pyIntFn,
      pyIntOfString_pyStrOfInt]
  | vFloat f =>
    have hs : pySerialize (.vFloat f) = .ok (pyStrOfFloat f) := rfl
    rw [hs] at hser
    obtain rfl : pyStrOfFloat f = s := Except.ok.inj hser
    show pyUnserialize (.vStr (pyStrOfFloat f)) .tFloat = .ok (.vFloat f)
    rw [pyUnserialize, if_neg (by exact not_isinstance_true rfl), if_neg (by decide), if_pos rfl,
      pyFloatFn, pyFloatOfString_pyStrOfFloat]
  | vBool b =>
    cases b
    · have hs : pySerialize (.vBool false) = .ok "False" := rfl
      rw [hs] at hser
      obtain rfl : "False" = s := Except.ok.inj hser
      show pyUnserialize (.vStr "False") .tBool = .ok (.vBool false)
      rw [pyUnserialize, if_neg (by exact not_isinstance_true rfl), if_neg (by decide),
        if_neg (by decide), if_neg (by decide), if_pos rfl]
      rfl
    · have hs : pySerialize (.vBool true) = .ok "True" := rfl
      rw [hs] at hser
      obtain rfl : "True" = s := Except.ok.inj hser
      show pyUnserialize (.vStr "True") .tBool = .ok (.vBool true)
      rw [pyUnserialize, if_neg (by exact not_isinstance_true rfl), if_neg (by decide),
        if_neg (by decide), if_neg (by decide), if_pos rfl]
      rfl
  | vList l =>
    have hs : pySerialize (.vList l) =
        match jsonDumps (.vList l) with
        | some s => .ok s
        | none => .error (.typeError "Object is not JSON serializable") := rfl
    rw [hs] at hser
    cases hjd : jsonDumps (.vList l) with
    | none => rw [hjd] at hser; exact absurd hser (by simp)
    | some s2 =>
      rw [hjd] at hser
      obtain rfl : s2 = s := Except.ok.inj hser
      show pyUnserialize (.vStr s2) .tList = .ok (.vList l)
      rw [pyUnserialize, if_neg (by exact not_isinstance_true rfl), if_neg (by decide),
        if_neg (by decide), if_pos (Or.inr rfl), pyJsonLoadsFn,
        jsonLoads_jsonDumps hjd]
  | vDict entries => exact absurd hsup (by simp [pySupported])
  | vNone => exact absurd hsup (by simp [pySupported])

/-- A supported value serializes successfully. -/
theorem pySerialize_supported {v : PyVal} (hsup : pySupported v = true) :
    ∃ s, pySerialize v = .ok s := by
  cases v with
  | vStr s => exact ⟨s, rfl⟩
  | vInt n => exact ⟨pyStrOfInt n, rfl⟩
  | vFloat f => exact ⟨pyStrOfFloat f, rfl⟩
  | vBool b => cases b
               · exact ⟨"False", rfl⟩
               · exact ⟨"True", rfl⟩
  | vList l =>
    rw [pySupported] at hsup
    cases hdl : jsonDumpsList l with
    | none => rw [hdl] at hsup; exact absurd hsup (by simp)
    | some inner =>
      have hdc : jsonDumpsChars (.vList l) = some ('[' :: (inner ++ [']'])) := by
        rw [jsonDumpsChars, hdl]
      have hjd : jsonDumps (.vList l) = some ⟨'[' :: (inner ++ [']'])⟩ := by
        rw [jsonDumps, hdc]
      refine ⟨⟨'[' :: (inner ++ [']'])⟩, ?_⟩
      show (match jsonDumps (.vList l) with
        | some s => Except.ok s
        | none => Except.error (PyErr.typeError "Object is not JSON serializable")) = _
      rw [hjd]
  | vDict entries => exact absurd hsup (by simp [pySupported])
  | vNone => exact absurd hsup (by simp [pySupported])

/-! ## The settings engine (`SettingsProxy` and `SettingsSandbox`) -/

/-- A persisted setting record: key and serialized string value.  Row
identity beyond the key is outside this model; the source's `clone()` plus
`save()` sequence is modelled as the write of a fresh record replacing the
current one for the key (history rows are not observable through this API). -/
structure Setting where
  key : String
  value : String
deriving DecidableEq

/-- One owner's `SettingsProxy`: the owner's current records in the store
(`self._obj.setting_objects.current`) and the lazily initialised cache
(`_cached_obj`; `none` models the not-yet-loaded state). -/
structure SettingsProxy where
  store : List Setting
  cachedObj : Option (List (String × Setting))
deriving DecidableEq

/-- Dict assignment `d[k] = s`: replace the first binding of the key, or
append a new one. -/
def cacheInsert : List (String × Setting) → String → Setting → List (String × Setting)
  | [], k, s => [(k, s)]
  | (k', s') :: rest, k, s =>
    if k' = k then (k, s) :: rest else (k', s') :: cacheInsert rest k s

/-- Building `_cached_obj` from the store: `for setting in current.all():
cache[setting.key] = setting` (later rows win on duplicate keys, as for a
Python dict). -/
def loadCache (store : List Setting) : List (String × Setting) :=
  store.foldl (fun m s => cacheInsert m s.key s) []

/-- The contents `self._cache()` returns (loading on first use). -/
def cacheOf (p : SettingsProxy) : List (String × Setting) :=
  p.cachedObj.getD (loadCache p.store)

/-- The proxy state after `self._cache()` has run. -/
def withCache (p : SettingsProxy) : SettingsProxy :=
  { p with cachedObj := some (cacheOf p) }

/-- Dict lookup `d[k]` / `k in d`. -/
def cacheLookup (m : List (String × Setting)) (key : String) : Option Setting :=
  (m.find? (fun kv => kv.1 == key)).map (fun kv => kv.2)

/-- The current record for a key in a store. -/
def storeLookup (store : List Setting) (key : String) : Option Setting :=
  store.find? (fun r => r.key == key)

/-- Store write of a record (the `save()` of the clone or fresh record):
replace the current record with the same key, or add the record. -/
def storeSave : List Setting → Setting → List Setting
  | [], s => [s]
  | r :: rest, s => if r.key = s.key then s :: rest else r :: storeSave rest s

/-- Store delete of the current record with the given key (the cached
record's `delete()`; with the cache in sync this is that row). -/
def storeErase : List Setting → String → List Setting
  | [], _ => []
  | r :: rest, k => if r.key = k then rest else r :: storeErase rest k

/-- Dict deletion `del d[k]`. -/
def cacheRemove : List (String × Setting) → String → List (String × Setting)
  | [], _ => []
  | (k', s') :: rest, k => if k' = k then rest else (k', s') :: cacheRemove rest k

/-- The built-in `DEFAULTS` table of the source. -/
def DEFAULTS : List (String × String) :=
  [("user_mail_required", "False"),
   ("max_items_per_order", "10"),
   ("attendee_names_asked", "True"),
   ("attendee_names_required", "False")]

/-- `key in DEFAULTS` / `DEFAULTS[key]`. -/
def defaultsLookup (key : String) : Option String :=
  (DEFAULTS.find? (fun kv => kv.1 == key)).map (fun kv => kv.2)

/-- Python `value is None` over the modelled values. -/
def isNone : PyVal → Bool
  | .vNone => true
  | _ => false

/-- The tail of `SettingsProxy.get` after a local cache miss: how the
parent's result `pres`, the `DEFAULTS` table and the caller's `default`
produce the answer (the `value is None` branching of the source, in source
order). -/
def afterParent (pres : Except PyErr PyVal) (key : String) (default : PyVal)
    (as_type : PyType) : Except PyErr PyVal :=
  match pres with
  | .error e => .error e
  | .ok value =>
    if isNone value && (defaultsLookup key).isSome then
      pyUnserialize (.vStr ((defaultsLookup key).getD "")) as_type
    else if isNone value && !(isNone default) then
      pyUnserialize default as_type
    else pyUnserialize value as_type

/-- Model of `SettingsProxy.get(key, default, as_type)` over the ownership
chain (head = this owner, tail = its ancestors; `self._parent.settings` is
the proxy of the next entry).  `get` on the empty chain stands for the
source's no-parent case, in which `value` simply stays `None`. -/
def sget : List SettingsProxy → String → PyVal → PyType → Except PyErr PyVal
  | [], _, _, _ => .ok .vNone
  | p :: anc, key, default, as_type =>
    match cacheLookup (cacheOf p) key with
    | some s => pyUnserialize (.vStr s.value) as_type
    | none => afterParent (sget anc key .vNone .tStr) key default as_type

/-- The cache-loading side effect of one `get`: the own cache always loads;
ancestors are reached (and lazily loaded) only after a local miss. -/
def sgetTouch : List SettingsProxy → String → List SettingsProxy
  | [], _ => []
  | p :: anc, key =>
    match cacheLookup (cacheOf p) key with
    | some _ => withCache p :: anc
    | none => withCache p :: sgetTouch anc key

/-- Model of `SettingsProxy.set(key, value)` on the targeted owner: pick the
record (clone of the cached one, or a fresh one scoped to the owner),
serialize, save, then refresh the cache entry.  The error component models
the `TypeError` escaping from `_serialize` — raised after `_cache()` ran but
before any record is saved or any cache entry changed. -/
def sset (p : SettingsProxy) (key : String) (value : PyVal) :
    SettingsProxy × Option PyErr :=
  match pySerialize value with
  | .error e => (withCache p, some e)
  | .ok sv =>
    ({ store := storeSave p.store ⟨key, sv⟩,
       cachedObj := some (cacheInsert (cacheOf p) key ⟨key, sv⟩) }, none)

/-- Model of `SettingsProxy.__delitem__(key)`. -/
def sdelete (p : SettingsProxy) (key : String) : SettingsProxy :=
  match cacheLookup (cacheOf p) key with
  | some _ =>
    { store := storeErase p.store key,
      cachedObj := some (cacheRemove (cacheOf p) key) }
  | none => withCache p

/-- `set` at chain level: the code touches only `self`, never the parent,
so only the head owner changes. -/
def chainSet : List SettingsProxy → String → PyVal → List SettingsProxy × Option PyErr
  | [], _, _ => ([], none)
  | p :: anc, key, value => ((sset p key value).1 :: anc, (sset p key value).2)

/-- `__delitem__` at chain level: only the head owner changes. -/
def chainDelete : List SettingsProxy → String → List SettingsProxy
  | [], _ => []
  | p :: anc, key => sdelete p key :: anc

/-- Model of `SettingsSandbox`: the scope type and sub-key namespace. -/
structure SettingsSandbox where
  stype : String
  skey : String

/-- `SettingsSandbox._convert_key`: `'%s_%s_%s' % (type, key, requested)`. -/
def convertKey (b : SettingsSandbox) (key : String) : String :=
  b.stype ++ "_" ++ b.skey ++ "_" ++ key

/-- Model of `SettingsSandbox.get`.  The source passes the builtin `type` as
`as_type` instead of forwarding the caller's argument; the caller's
`as_type` is received and discarded, exactly as in the code. -/
def sandboxGet (b : SettingsSandbox) (chain : List SettingsProxy) (key : String)
    (default : PyVal) (_as_type : PyType) : Except PyErr PyVal :=
  sget chain (convertKey b key) default .tType

/-- Model of `SettingsSandbox.set`. -/
def sandboxSet (b : SettingsSandbox) (p : SettingsProxy) (key : String)
    (value : PyVal) : SettingsProxy × Option PyErr :=
  sset p (convertKey b key) value

/-- Model of `SettingsSandbox.__delitem__`. -/
def sandboxDelete (b : SettingsSandbox) (p : SettingsProxy) (key : String) :
    SettingsProxy :=
  sdelete p (convertKey b key)

/-- Claim-side resolution for C1: the raw, value-level walk up the chain,
with no defaults involved. -/
def rawResolve : List SettingsProxy → String → Option String
  | [], _ => none
  | p :: anc, key =>
    match cacheLookup (cacheOf p) key with
    | some s => some s.value
    | none => rawResolve anc key

/-- Claim-side `get` for C1, with the claim's five steps in order: local
cache, raw chain walk, defaults table only after the chain is exhausted,
caller default, then `None` through unserialization. -/
def claimGet : List SettingsProxy → String → PyVal → PyType → Except PyErr PyVal
  | [], _, _, _ => .ok .vNone
  | p :: anc, key, default, as_type =>
    match cacheLookup (cacheOf p) key with
    | some s => pyUnserialize (.vStr s.value) as_type
    | none =>
      match rawResolve anc key with
      | some v => pyUnserialize (.vStr v) as_type
      | none =>
        match defaultsLookup key with
        | some dv => pyUnserialize (.vStr dv) as_type
        | none =>
          if isNone default then pyUnserialize .vNone as_type
          else pyUnserialize default as_type

theorem cacheOf_withCache (p : SettingsProxy) : cacheOf (withCache p) = cacheOf p := rfl

theorem store_withCache (p : SettingsProxy) : (withCache p).store = p.store := rfl

theorem cacheLookup_cons (k2 : String) (s2 : Setting) (rest : List (String × Setting))
    (k' : String) :
    cacheLookup ((k2, s2) :: rest) k' =
      if k2 = k' then some s2 else cacheLookup rest k' := by
  simp only [cacheLookup, List.find?_cons]
  by_cases h : k2 = k'
  · have hb : (k2 == k') = true := by rw [beq_iff_eq]; exact h
    rw [if_pos h, hb]
    rfl
  · have hb : (k2 == k') = false := by rw [beq_eq_false_iff_ne]; exact h
    rw [if_neg h, hb]

theorem storeLookup_cons (r : Setting) (rest : List Setting) (k' : String) :
    storeLookup (r :: rest) k' =
      if r.key = k' then some r else storeLookup rest k' := by
  simp only [storeLookup, List.find?_cons]
  by_cases h : r.key = k'
  · have hb : (r.key == k') = true := by rw [beq_iff_eq]; exact h
    rw [if_pos h, hb]
  · have hb : (r.key == k') = false := by rw [beq_eq_false_iff_ne]; exact h
    rw [if_neg h, hb]

theorem cacheLookup_insert_self (m : List (String × Setting)) (k : String) (s : Setting) :
    cacheLookup (cacheInsert m k s) k = some s := by
  induction m with
  | nil =>
    show cacheLookup [(k, s)] k = some s
    rw [cacheLookup_cons, if_pos rfl]
  | cons kv rest ih =>
    obtain ⟨k', s'⟩ := kv
    rw [cacheInsert]
    by_cases h : k' = k
    · rw [if_pos h, cacheLookup_cons, if_pos rfl]
    · rw [if_neg h, cacheLookup_cons, if_neg h]
      exact ih

theorem cacheLookup_insert_other (m : List (String × Setting)) (k : String) (s : Setting)
    (k' : String) (hne : k' ≠ k) :
    cacheLookup (cacheInsert m k s) k' = cacheLookup m k' := by
  induction m with
  | nil =>
    show cacheLookup [(k, s)] k' = none
    rw [cacheLookup_cons, if_neg (fun hc => hne hc.symm)]
    rfl
  | cons kv rest ih =>
    obtain ⟨k2, s2⟩ := kv
    rw [cacheInsert]
    by_cases h : k2 = k
    · rw [if_pos h, cacheLookup_cons, cacheLookup_cons,
        if_neg (fun hc => hne hc.symm), if_neg (fun hc : k2 = k' => hne (by rw [← hc, h]))]
    · rw [if_neg h, cacheLookup_cons, cacheLookup_cons]
      by_cases hb : k2 = k'
      · rw [if_pos hb, if_pos hb]
      · rw [if_neg hb, if_neg hb]
        exact ih

theorem storeLookup_save_self (st : List Setting) (s : Setting) :
    storeLookup (storeSave st s) s.key = some s := by
  induction st with
  | nil =>
    show storeLookup [s] s.key = some s
    rw [storeLookup_cons, if_pos rfl]
  | cons r rest ih =>
    rw [storeSave]
    by_cases h : r.key = s.key
    · rw [if_pos h, storeLookup_cons, if_pos rfl]
    · rw [if_neg h, storeLookup_cons, if_neg h]
      exact ih

theorem storeLookup_save_other (st : List Setting) (s : Setting) (k' : String)
    (hne : k' ≠ s.key) :
    storeLookup (storeSave st s) k' = storeLookup st k' := by
  induction st with
  | nil =>
    show storeLookup [s] k' = none
    rw [storeLookup_cons, if_neg (fun hc => hne hc.symm)]
    rfl
  | cons r rest ih =>
    rw [storeSave]
    by_cases h : r.key = s.key
    · rw [if_pos h, storeLookup_cons, storeLookup_cons,
        if_neg (fun hc => hne hc.symm), if_neg (fun hc : r.key = k' => hne (by rw [← hc, h]))]
    · rw [if_neg h, storeLookup_cons, storeLookup_cons]
      by_cases hb : r.key = k'
      · rw [if_pos hb, if_pos hb]
      · rw [if_neg hb, if_neg hb]
        exact ih

theorem storeLookup_eq_none_of_not_mem (st : List Setting) (k : String)
    (h : k ∉ st.map Setting.key) : storeLookup st k = none := by
  induction st with
  | nil => rfl
  | cons r rest ih =>
    simp only [List.map_cons, List.mem_cons] at h
    push_neg at h
    rw [storeLookup_cons, if_neg (fun hc => h.1 hc.symm)]
    exact ih h.2

theorem storeLookup_erase_self (st : List Setting) (k : String)
    (hnd : (st.map Setting.key).Nodup) : storeLookup (storeErase st k) k = none := by
  induction st with
  | nil => rfl
  | cons r rest ih =>
    simp only [List.map_cons, List.nodup_cons] at hnd
    rw [storeErase]
    by_cases h : r.key = k
    · rw [if_pos h]
      exact storeLookup_eq_none_of_not_mem rest k (h ▸ hnd.1)
    · rw [if_neg h, storeLookup_cons, if_neg h]
      exact ih hnd.2

theorem storeLookup_erase_other (st : List Setting) (k k' : String) (hne : k' ≠ k) :
    storeLookup (storeErase st k) k' = storeLookup st k' := by
  induction st with
  | nil => rfl
  | cons r rest ih =>
    rw [storeErase]
    by_cases h : r.key = k
    · rw [if_pos h, storeLookup_cons,
        if_neg (fun hc : r.key = k' => hne (by rw [← hc, h]))]
    · rw [if_neg h, storeLookup_cons, storeLookup_cons]
      by_cases hb : r.key = k'
      · rw [if_pos hb, if_pos hb]
      · rw [if_neg hb, if_neg hb]
        exact ih

theorem cacheLookup_eq_none_of_not_mem (m : List (String × Setting)) (k : String)
    (h : k ∉ m.map Prod.fst) : cacheLookup m k = none := by
  induction m with
  | nil => rfl
  | cons kv rest ih =>
    obtain ⟨k2, s2⟩ := kv
    simp only [List.map_cons, List.mem_cons] at h
    push_neg at h
    rw [cacheLookup_cons, if_neg (fun hc => h.1 hc.symm)]
    exact ih h.2

theorem cacheLookup_remove_self (m : List (String × Setting)) (k : String)
    (hnd : (m.map Prod.fst).Nodup) : cacheLookup (cacheRemove m k) k = none := by
  induction m with
  | nil => rfl
  | cons kv rest ih =>
    obtain ⟨k2, s2⟩ := kv
    simp only [List.map_cons, List.nodup_cons] at hnd
    rw [cacheRemove]
    by_cases h : k2 = k
    · rw [if_pos h]
      exact cacheLookup_eq_none_of_not_mem rest k (h ▸ hnd.1)
    · rw [if_neg h, cacheLookup_cons, if_neg h]
      exact ih hnd.2

theorem cacheLookup_remove_other (m : List (String × Setting)) (k k' : String)
    (hne : k' ≠ k) : cacheLookup (cacheRemove m k) k' = cacheLookup m k' := by
  induction m with
  | nil => rfl
  | cons kv rest ih =>
    obtain ⟨k2, s2⟩ := kv
    rw [cacheRemove]
    by_cases h : k2 = k
    · rw [if_pos h, cacheLookup_cons,
        if_neg (fun hc : k2 = k' => hne (by rw [← hc, h]))]
    · rw [if_neg h, cacheLookup_cons, cacheLookup_cons]
      by_cases hb : k2 = k'
      · rw [if_pos hb, if_pos hb]
      · rw [if_neg hb, if_neg hb]
        exact ih

/-! ## Resolution helper lemmas -/

theorem pyUnserialize_str_tStr (s : String) :
    pyUnserialize (.vStr s) .tStr = .ok (.vStr s) := rfl

theorem pyUnserialize_none_tStr : pyUnserialize .vNone .tStr = .ok .vNone := rfl

theorem pyUnserialize_str_tBool (s : String) :
    pyUnserialize (.vStr s) .tBool = .ok (.vBool (s == "True")) := rfl

theorem isNone_vStr (s : String) : isNone (.vStr s) = false := rfl

theorem isNone_vNone : isNone .vNone = true := rfl

theorem afterParent_error (e : PyErr) (key : String) (default : PyVal) (as_type : PyType) :
    afterParent (.error e) key default as_type = .error e := rfl

theorem afterParent_ok (value : PyVal) (key : String) (default : PyVal) (as_type : PyType) :
    afterParent (.ok value) key default as_type =
      if isNone value && (defaultsLookup key).isSome then
        pyUnserialize (.vStr ((defaultsLookup key).getD "")) as_type
      else if isNone value && !(isNone default) then
        pyUnserialize default as_type
      else pyUnserialize value as_type := rfl

theorem sget_nil (key : String) (default : PyVal) (as_type : PyType) :
    sget [] key default as_type = .ok .vNone := rfl

theorem sget_cons (p : SettingsProxy) (anc : List SettingsProxy) (key : String)
    (default : PyVal) (as_type : PyType) :
    sget (p :: anc) key default as_type =
      match cacheLookup (cacheOf p) key with
      | some s => pyUnserialize (.vStr s.value) as_type
      | none => afterParent (sget anc key .vNone .tStr) key default as_type := rfl

theorem rawResolve_cons (p : SettingsProxy) (anc : List SettingsProxy) (key : String) :
    rawResolve (p :: anc) key =
      match cacheLookup (cacheOf p) key with
      | some s => some s.value
      | none => rawResolve anc key := rfl

theorem claimGet_cons (p : SettingsProxy) (anc : List SettingsProxy) (key : String)
    (default : PyVal) (as_type : PyType) :
    claimGet (p :: anc) key default as_type =
      match cacheLookup (cacheOf p) key with
      | some s => pyUnserialize (.vStr s.value) as_type
      | none =>
        match rawResolve anc key with
        | some v => pyUnserialize (.vStr v) as_type
        | none =>
          match defaultsLookup key with
          | some dv => pyUnserialize (.vStr dv) as_type
          | none =>
            if isNone default then pyUnserialize .vNone as_type
            else pyUnserialize default as_type := rfl

theorem sget_str_raw (chain : List SettingsProxy) (key v : String)
    (h : rawResolve chain key = some v) :
    sget chain key .vNone .tStr = .ok (.vStr v) := by
  induction chain with
  | nil => exact Option.noConfusion h
  | cons p anc ih =>
    rw [sget_cons]
    rw [rawResolve_cons] at h
    cases hc : cacheLookup (cacheOf p) key with
    | some s =>
      rw [hc] at h
      simp only at h
      obtain rfl : s.value = v := Option.some.inj h
      simp only [pyUnserialize_str_tStr]
    | none =>
      rw [hc] at h
      simp only at h
      rw [ih h, afterParent_ok]
      simp [isNone_vStr, pyUnserialize_str_tStr]

theorem sget_str_noraw_nodefault (chain : List SettingsProxy) (key : String)
    (h : rawResolve chain key = none) (hd : defaultsLookup key = none) :
    sget chain key .vNone .tStr = .ok .vNone := by
  induction chain with
  | nil => rfl
  | cons p anc ih =>
    rw [sget_cons]
    rw [rawResolve_cons] at h
    cases hc : cacheLookup (cacheOf p) key with
    | some s =>
      rw [hc] at h
      exact Option.noConfusion h
    | none =>
      rw [hc] at h
      simp only at h
      rw [ih h, afterParent_ok]
      simp [isNone_vNone, hd, pyUnserialize_none_tStr]

theorem sget_str_noraw_default (p : SettingsProxy) (anc : List SettingsProxy)
    (key dv : String) (h : rawResolve (p :: anc) key = none)
    (hd : defaultsLookup key = some dv) :
    sget (p :: anc) key .vNone .tStr = .ok (.vStr dv) := by
  induction anc generalizing p with
  | nil =>
    rw [rawResolve_cons] at h
    cases hc : cacheLookup (cacheOf p) key with
    | some s =>
      rw [hc] at h
      exact Option.noConfusion h
    | none =>
      rw [sget_cons, hc, sget_nil, afterParent_ok]
      simp [isNone_vNone, hd, pyUnserialize_str_tStr]
  | cons a t ih =>
    rw [rawResolve_cons] at h
    cases hc : cacheLookup (cacheOf p) key with
    | some s =>
      rw [hc] at h
      exact Option.noConfusion h
    | none =>
      rw [hc] at h
      simp only at h
      rw [sget_cons, hc, ih a h, afterParent_ok]
      simp [isNone_vStr, pyUnserialize_str_tStr]

theorem sget_of_raw (chain : List SettingsProxy) (key v : String) (default : PyVal)
    (as_type : PyType) (h : rawResolve chain key = some v) :
    sget chain key default as_type = pyUnserialize (.vStr v) as_type := by
  cases chain with
  | nil => exact Option.noConfusion h
  | cons p anc =>
    rw [sget_cons]
    rw [rawResolve_cons] at h
    cases hc : cacheLookup (cacheOf p) key with
    | some s =>
      rw [hc] at h
      simp only at h
      obtain rfl : s.value = v := Option.some.inj h
      simp only
    | none =>
      rw [hc] at h
      simp only at h
      rw [sget_str_raw anc key v h, afterParent_ok]
      simp [isNone_vStr]

theorem sget_of_noraw_default (p : SettingsProxy) (anc : List SettingsProxy)
    (key dv : String) (default : PyVal) (as_type : PyType)
    (h : rawResolve (p :: anc) key = none) (hd : defaultsLookup key = some dv) :
    sget (p :: anc) key default as_type = pyUnserialize (.vStr dv) as_type := by
  rw [rawResolve_cons] at h
  cases hc : cacheLookup (cacheOf p) key with
  | some s =>
    rw [hc] at h
    exact Option.noConfusion h
  | none =>
    rw [hc] at h
    simp only at h
    rw [sget_cons, hc]
    cases anc with
    | nil =>
      rw [sget_nil, afterParent_ok]
      simp [isNone_vNone, hd]
    | cons a t =>
      rw [sget_str_noraw_default a t key dv h hd, afterParent_ok]
      simp [isNone_vStr]

theorem sget_of_noraw_nodefault (p : SettingsProxy) (anc : List SettingsProxy)
    (key : String) (default : PyVal) (as_type : PyType)
    (h : rawResolve (p :: anc) key = none) (hd : defaultsLookup key = none) :
    sget (p :: anc) key default as_type =
      if isNone default then pyUnserialize .vNone as_type
      else pyUnserialize default as_type := by
  rw [rawResolve_cons] at h
  cases hc : cacheLookup (cacheOf p) key with
  | some s =>
    rw [hc] at h
    exact Option.noConfusion h
  | none =>
    rw [hc] at h
    simp only at h
    rw [sget_cons, hc, sget_str_noraw_nodefault anc key h hd, afterParent_ok]
    cases hdef : isNone default with
    | true => simp [isNone_vNone, hd, hdef]
    | false => simp [isNone_vNone, hd, hdef]

/-- The observational equality behind C1: on any owner with its ancestor
chain, the source resolution equals the claim-side five-step resolution. -/
theorem sget_eq_claimGet_aux (p : SettingsProxy) (anc : List SettingsProxy)
    (key : String) (default : PyVal) (as_type : PyType) :
    sget (p :: anc) key default as_type = claimGet (p :: anc) key default as_type := by
  rw [claimGet_cons]
  cases hc : cacheLookup (cacheOf p) key with
  | some s =>
    rw [sget_cons, hc]
  | none =>
    cases hraw : rawResolve anc key with
    | some v =>
      have hr : rawResolve (p :: anc) key = some v := by
        rw [rawResolve_cons, hc]
        simp only [hraw]
      rw [sget_of_raw (p :: anc) key v default as_type hr]
    | none =>
      have hr : rawResolve (p :: anc) key = none := by
        rw [rawResolve_cons, hc]
        simp only [hraw]
      cases hd : defaultsLookup key with
      | some dv =>
        rw [sget_of_noraw_default p anc key dv default as_type hr hd]
      | none =>
        rw [sget_of_noraw_nodefault p anc key default as_type hr hd]

/-- After a successful `set`, `get` of the same key on the same owner hits
the refreshed cache entry and unserializes the just-persisted string. -/
theorem sget_after_sset (p : SettingsProxy) (anc : List SettingsProxy) (k : String)
    (v : PyVal) (sv : String) (default : PyVal) (as_type : PyType)
    (hser : pySerialize v = .ok sv) :
    sget ((sset p k v).1 :: anc) k default as_type = pyUnserialize (.vStr sv) as_type := by
  have hsset : sset p k v =
      (SettingsProxy.mk (storeSave p.store ⟨k, sv⟩)
        (some (cacheInsert (cacheOf p) k ⟨k, sv⟩)), none) := by
    rw [sset, hser]
  have hco : cacheOf (SettingsProxy.mk (storeSave p.store ⟨k, sv⟩)
        (some (cacheInsert (cacheOf p) k ⟨k, sv⟩)))
      = cacheInsert (cacheOf p) k ⟨k, sv⟩ := rfl
  rw [hsset, sget_cons, hco, cacheLookup_insert_self]

theorem sset_err (p : SettingsProxy) (k : String) (v : PyVal) (e : PyErr)
    (hser : pySerialize v = .error e) :
    sset p k v = (withCache p, some e) := by
  rw [sset, hser]

theorem sgetTouch_cons (p : SettingsProxy) (anc : List SettingsProxy) (key : String) :
    sgetTouch (p :: anc) key =
      match cacheLookup (cacheOf p) key with
      | some _ => withCache p :: anc
      | none => withCache p :: sgetTouch anc key := rfl

theorem sgetTouch_store (chain : List SettingsProxy) (key : String) :
    (sgetTouch chain key).map SettingsProxy.store = chain.map SettingsProxy.store := by
  induction chain with
  | nil => rfl
  | cons p anc ih =>
    rw [sgetTouch_cons]
    cases hc : cacheLookup (cacheOf p) key with
    | some s => rfl
    | none =>
      simp only [List.map_cons, ih, store_withCache]

theorem sgetTouch_cache (chain : List SettingsProxy) (key : String) :
    (sgetTouch chain key).map cacheOf = chain.map cacheOf := by
  induction chain with
  | nil => rfl
  | cons p anc ih =>
    rw [sgetTouch_cons]
    cases hc : cacheLookup (cacheOf p) key with
    | some s => rfl
    | none =>
      simp only [List.map_cons, ih, cacheOf_withCache]

/-! ## The claims -/

/-- Claim C1: `get(key, default, as_type)` resolves in the claimed
short-circuiting order — local cache, then the parent chain as a raw string,
then the built-in default table, then a non-null caller default, and finally
`unserialize(None, as_type)` — for every owner and ancestor chain. -/
theorem claim_C1 (p : SettingsProxy) (anc : List SettingsProxy) (key : String)
    (default : PyVal) (as_type : PyType) :
    sget (p :: anc) key default as_type = claimGet (p :: anc) key default as_type :=
  sget_eq_claimGet_aux p anc key default as_type

/-- Claim C2: for every supported value `v`, `set(k, v)` succeeds and
`get(k, as_type=type(v))` returns `v`; the boolean round trip goes through
the persisted literal strings `"True"` and `"False"`. -/
theorem claim_C2 (p : SettingsProxy) (anc : List SettingsProxy) (k : String)
    (v : PyVal) (hsup : pySupported v = true) :
    (sset p k v).2 = none ∧
    sget ((sset p k v).1 :: anc) k .vNone (pyTypeOf v) = .ok v ∧
    pySerialize (.vBool true) = .ok "True" ∧
    pySerialize (.vBool false) = .ok "False" := by
  obtain ⟨sv, hser⟩ := pySerialize_supported hsup
  refine ⟨?_, ?_, rfl, rfl⟩
  · rw [sset, hser]
  · rw [sget_after_sset p anc k v sv .vNone (pyTypeOf v) hser,
      pyUnserialize_pySerialize hsup hser]

theorem claim_C2_witness :
    pySupported (.vBool true) = true ∧
    ((sset ⟨[], none⟩ "k" (.vBool true)).2 = none ∧
     sget ((sset ⟨[], none⟩ "k" (.vBool true)).1 :: ([] : List SettingsProxy)) "k" .vNone
       (pyTypeOf (.vBool true)) = .ok (.vBool true) ∧
     pySerialize (.vBool true) = .ok "True" ∧
     pySerialize (.vBool false) = .ok "False") :=
  ⟨rfl, claim_C2 ⟨[], none⟩ [] "k" (.vBool true) rfl⟩

/-- Claim C3: resolution walks the entire ownership chain before defaults —
a raw value anywhere in the chain wins and is unserialized at the caller's
type, the DEFAULTS table contributes only when no owner in the chain defines
the key, and on a chain with no records for it,
`get("max_items_per_order", as_type=int)` returns `10`. -/
theorem claim_C3 (p : SettingsProxy) (anc : List SettingsProxy) (key : String)
    (default : PyVal) (as_type : PyType) :
    (∀ v, rawResolve (p :: anc) key = some v →
       sget (p :: anc) key default as_type = pyUnserialize (.vStr v) as_type) ∧
    (∀ dv, rawResolve (p :: anc) key = none → defaultsLookup key = some dv →
       sget (p :: anc) key default as_type = pyUnserialize (.vStr dv) as_type) ∧
    (rawResolve (p :: anc) "max_items_per_order" = none →
       sget (p :: anc) "max_items_per_order" .vNone .tInt = .ok (.vInt 10)) := by
  refine ⟨fun v h => sget_of_raw (p :: anc) key v default as_type h,
    fun dv h hd => sget_of_noraw_default p anc key dv default as_type h hd,
    fun h => ?_⟩
  rw [sget_of_noraw_default p anc "max_items_per_order" "10" .vNone .tInt h rfl]
  rfl

theorem claim_C3_witness :
    rawResolve ((⟨[], none⟩ : SettingsProxy) :: []) "max_items_per_order" = none ∧
    sget ((⟨[], none⟩ : SettingsProxy) :: []) "max_items_per_order" .vNone .tInt
      = .ok (.vInt 10) :=
  ⟨rfl, (claim_C3 ⟨[], none⟩ [] "max_items_per_order" .vNone .tInt).2.2 rfl⟩

/-- Claim C4: the claim is REFUTED by the code — `SettingsSandbox.get`
passes the builtin `type` as `as_type` instead of forwarding the caller's
requested type, so a boolean request through the view returns the raw
string, while a direct `get` with the prefixed key and `as_type=bool` on
the same owner returns the boolean. -/
theorem claim_C4 :
    sandboxGet ⟨"plugin", "foo"⟩
        [(⟨[⟨"plugin_foo_bar", "True"⟩], none⟩ : SettingsProxy)] "bar" .vNone .tBool
      = .ok (.vStr "True") ∧
    sget [(⟨[⟨"plugin_foo_bar", "True"⟩], none⟩ : SettingsProxy)]
        "plugin_foo_bar" .vNone .tBool
      = .ok (.vBool true) := ⟨rfl, rfl⟩

/-- Claim C5: a value of unsupported type (neither str, int, float, bool nor
list — e.g. a dict) makes `set` fail with the `TypeError` naming the value's
type, and neither the store nor the cache contents change. -/
theorem claim_C5 (p : SettingsProxy) (k : String) (v : PyVal)
    (h : topUnsupported v = true) :
    (sset p k v).2 =
      some (.typeError ("Unable to serialize " ++ pyTypeRepr v ++ " into a setting.")) ∧
    (sset p k v).1.store = p.store ∧
    cacheOf (sset p k v).1 = cacheOf p := by
  have hser : pySerialize v =
      .error (.typeError ("Unable to serialize " ++ pyTypeRepr v ++ " into a setting.")) := by
    cases v with
    | vDict entries => rfl
    | vNone => rfl
    | vStr s =>
      rw [show topUnsupported (.vStr s) = false from rfl] at h
      exact Bool.noConfusion h
    | vInt n =>
      rw [show topUnsupported (.vInt n) = false from rfl] at h
      exact Bool.noConfusion h
    | vFloat f =>
      rw [show topUnsupported (.vFloat f) = false from rfl] at h
      exact Bool.noConfusion h
    | vBool b =>
      rw [show topUnsupported (.vBool b) = false from rfl] at h
      exact Bool.noConfusion h
    | vList l =>
      rw [show topUnsupported (.vList l) = false from rfl] at h
      exact Bool.noConfusion h
  rw [sset_err p k v _ hser]
  exact ⟨rfl, rfl, rfl⟩

theorem claim_C5_witness :
    topUnsupported (.vDict []) = true ∧
    ((sset ⟨[], none⟩ "k" (.vDict [])).2 =
       some (.typeError ("Unable to serialize " ++ pyTypeRepr (.vDict []) ++
         " into a setting.")) ∧
     (sset ⟨[], none⟩ "k" (.vDict [])).1.store = (⟨[], none⟩ : SettingsProxy).store ∧
     cacheOf (sset ⟨[], none⟩ "k" (.vDict [])).1 = cacheOf ⟨[], none⟩) :=
  ⟨rfl, claim_C5 ⟨[], none⟩ "k" (.vDict []) rfl⟩

/-- Claim C6: boolean unserialization is the case-sensitive literal `"True"`
test — every other string, including `"true"`, `"1"` and `""`, gives
`False` — and the three set-then-get scenarios behave accordingly. -/
theorem claim_C6 (s k : String) (p : SettingsProxy) (anc : List SettingsProxy) :
    (pyUnserialize (.vStr s) .tBool = .ok (.vBool true) ↔ s = "True") ∧
    pyUnserialize (.vStr "true") .tBool = .ok (.vBool false) ∧
    pyUnserialize (.vStr "1") .tBool = .ok (.vBool false) ∧
    pyUnserialize (.vStr "") .tBool = .ok (.vBool false) ∧
    sget ((sset p k (.vBool true)).1 :: anc) k .vNone .tBool = .ok (.vBool true) ∧
    sget ((sset p k (.vStr "True")).1 :: anc) k .vNone .tBool = .ok (.vBool true) ∧
    sget ((sset p k (.vStr "true")).1 :: anc) k .vNone .tBool = .ok (.vBool false) := by
  refine ⟨?_, rfl, rfl, rfl, ?_, ?_, ?_⟩
  · rw [pyUnserialize_str_tBool]
    constructor
    · intro hyp
      have h1 : PyVal.vBool (s == "True") = PyVal.vBool true := Except.ok.inj hyp
      have h2 : (s == "True") = true := by injection h1
      rw [beq_iff_eq] at h2
      exact h2
    · intro hyp
      rw [hyp]
      rfl
  · rw [sget_after_sset p anc k (.vBool true) "True" .vNone .tBool rfl]
    rfl
  · rw [sget_after_sset p anc k (.vStr "True") "True" .vNone .tBool rfl]
    rfl
  · rw [sget_after_sset p anc k (.vStr "true") "true" .vNone .tBool rfl]
    rfl

/-- Claim C7: `delete` removes the record from the store and the cache entry
when the key is cached and is a no-op otherwise; afterwards `get` for that
key resolves through parents and defaults exactly as on an owner that never
set the key locally. -/
theorem claim_C7 (p : SettingsProxy) (anc : List SettingsProxy) (k : String)
    (hndc : ((cacheOf p).map Prod.fst).Nodup)
    (hnds : (p.store.map Setting.key).Nodup) :
    (∀ s, cacheLookup (cacheOf p) k = some s →
       (sdelete p k).store = storeErase p.store k ∧
       storeLookup (sdelete p k).store k = none ∧
       cacheLookup (cacheOf (sdelete p k)) k = none) ∧
    (cacheLookup (cacheOf p) k = none → sdelete p k = withCache p) ∧
    (∀ default as_type,
       sget (sdelete p k :: anc) k default as_type =
         sget ((⟨[], none⟩ : SettingsProxy) :: anc) k default as_type) := by
  have hempty : ∀ default as_type,
      sget ((⟨[], none⟩ : SettingsProxy) :: anc) k default as_type
        = afterParent (sget anc k .vNone .tStr) k default as_type := by
    intro default as_type
    rw [sget_cons, show cacheLookup (cacheOf (⟨[], none⟩ : SettingsProxy)) k = none from rfl]
  refine ⟨?_, ?_, ?_⟩
  · intro s hs
    have hd1 : sdelete p k = SettingsProxy.mk (storeErase p.store k)
        (some (cacheRemove (cacheOf p) k)) := by
      rw [sdelete, hs]
    rw [hd1]
    exact ⟨rfl, storeLookup_erase_self p.store k hnds,
      cacheLookup_remove_self (cacheOf p) k hndc⟩
  · intro hn
    rw [sdelete, hn]
  · intro default as_type
    cases hc : cacheLookup (cacheOf p) k with
    | some s =>
      have hd1 : sdelete p k = SettingsProxy.mk (storeErase p.store k)
          (some (cacheRemove (cacheOf p) k)) := by
        rw [sdelete, hc]
      rw [hd1, sget_cons,
        show cacheOf (SettingsProxy.mk (storeErase p.store k)
          (some (cacheRemove (cacheOf p) k))) = cacheRemove (cacheOf p) k from rfl,
        cacheLookup_remove_self (cacheOf p) k hndc, hempty default as_type]
    | none =>
      have hd1 : sdelete p k = withCache p := by
        rw [sdelete, hc]
      rw [hd1, sget_cons, cacheOf_withCache, hc, hempty default as_type]

theorem claim_C7_witness :
    ((cacheOf ⟨[], none⟩).map Prod.fst).Nodup ∧
    ((⟨[], none⟩ : SettingsProxy).store.map Setting.key).Nodup ∧
    ((∀ s, cacheLookup (cacheOf ⟨[], none⟩) "k" = some s →
        (sdelete ⟨[], none⟩ "k").store = storeErase (⟨[], none⟩ : SettingsProxy).store "k" ∧
        storeLookup (sdelete ⟨[], none⟩ "k").store "k" = none ∧
        cacheLookup (cacheOf (sdelete ⟨[], none⟩ "k")) "k" = none) ∧
     (cacheLookup (cacheOf ⟨[], none⟩) "k" = none →
        sdelete ⟨[], none⟩ "k" = withCache ⟨[], none⟩) ∧
     (∀ default as_type,
        sget (sdelete ⟨[], none⟩ "k" :: ([] : List SettingsProxy)) "k" default as_type =
          sget ((⟨[], none⟩ : SettingsProxy) :: ([] : List SettingsProxy)) "k" default
            as_type)) :=
  ⟨List.nodup_nil, List.nodup_nil, claim_C7 ⟨[], none⟩ [] "k" List.nodup_nil List.nodup_nil⟩

/-- Claim C8: the "plugin"/"foo" view prefixes every requested key with
"plugin_foo_"; `set("bar", "baz")` on it stores key "plugin_foo_bar" with
value "baz" on the target owner, and `get("bar")` on the view returns
"baz". -/
theorem claim_C8 (p : SettingsProxy) (r : String) :
    convertKey ⟨"plugin", "foo"⟩ r = "plugin_foo_" ++ r ∧
    (sandboxSet ⟨"plugin", "foo"⟩ p "bar" (.vStr "baz")).2 = none ∧
    storeLookup (sandboxSet ⟨"plugin", "foo"⟩ p "bar" (.vStr "baz")).1.store
      "plugin_foo_bar" = some ⟨"plugin_foo_bar", "baz"⟩ ∧
    cacheLookup (cacheOf (sandboxSet ⟨"plugin", "foo"⟩ p "bar" (.vStr "baz")).1)
      "plugin_foo_bar" = some ⟨"plugin_foo_bar", "baz"⟩ ∧
    sandboxGet ⟨"plugin", "foo"⟩
      [(sandboxSet ⟨"plugin", "foo"⟩ p "bar" (.vStr "baz")).1] "bar" .vNone .tStr
      = .ok (.vStr "baz") := by
  have hsset : sandboxSet ⟨"plugin", "foo"⟩ p "bar" (.vStr "baz") =
      (SettingsProxy.mk (storeSave p.store ⟨"plugin_foo_bar", "baz"⟩)
        (some (cacheInsert (cacheOf p) "plugin_foo_bar" ⟨"plugin_foo_bar", "baz"⟩)),
       none) := rfl
  refine ⟨rfl, ?_, ?_, ?_, ?_⟩
  · rw [hsset]
  · rw [hsset]
    exact storeLookup_save_self p.store ⟨"plugin_foo_bar", "baz"⟩
  · rw [hsset]
    exact cacheLookup_insert_self (cacheOf p) "plugin_foo_bar" ⟨"plugin_foo_bar", "baz"⟩
  · rw [hsset, sandboxGet, show convertKey ⟨"plugin", "foo"⟩ "bar" = "plugin_foo_bar" from rfl,
      sget_cons,
      show cacheOf (SettingsProxy.mk (storeSave p.store ⟨"plugin_foo_bar", "baz"⟩)
        (some (cacheInsert (cacheOf p) "plugin_foo_bar" ⟨"plugin_foo_bar", "baz"⟩)))
        = cacheInsert (cacheOf p) "plugin_foo_bar" ⟨"plugin_foo_bar", "baz"⟩ from rfl,
      cacheLookup_insert_self]
    rfl

/-- Claim C9: `get` never mutates any owner's records or cache contents
along the chain, and `set`/`delete` mutate only the targeted head owner,
and within its store and cache only the entry for the written key. -/
theorem claim_C9 (p : SettingsProxy) (anc : List SettingsProxy) (k k' : String)
    (v : PyVal) (hne : k' ≠ k) :
    ((sgetTouch (p :: anc) k).map SettingsProxy.store
       = (p :: anc).map SettingsProxy.store ∧
     (sgetTouch (p :: anc) k).map cacheOf = (p :: anc).map cacheOf) ∧
    ((chainSet (p :: anc) k v).1.tail = anc ∧
     (chainDelete (p :: anc) k).tail = anc) ∧
    (storeLookup (sset p k v).1.store k' = storeLookup p.store k' ∧
     cacheLookup (cacheOf (sset p k v).1) k' = cacheLookup (cacheOf p) k' ∧
     storeLookup (sdelete p k).store k' = storeLookup p.store k' ∧
     cacheLookup (cacheOf (sdelete p k)) k' = cacheLookup (cacheOf p) k') := by
  refine ⟨⟨sgetTouch_store (p :: anc) k, sgetTouch_cache (p :: anc) k⟩,
    ⟨rfl, rfl⟩, ?_, ?_, ?_, ?_⟩
  · cases hser : pySerialize v with
    | error e =>
      rw [sset_err p k v e hser]
      rfl
    | ok sv =>
      have hsset : sset p k v = (SettingsProxy.mk (storeSave p.store ⟨k, sv⟩)
          (some (cacheInsert (cacheOf p) k ⟨k, sv⟩)), none) := by
        rw [sset, hser]
      rw [hsset]
      exact storeLookup_save_other p.store ⟨k, sv⟩ k' hne
  · cases hser : pySerialize v with
    | error e =>
      rw [sset_err p k v e hser]
      rfl
    | ok sv =>
      have hsset : sset p k v = (SettingsProxy.mk (storeSave p.store ⟨k, sv⟩)
          (some (cacheInsert (cacheOf p) k ⟨k, sv⟩)), none) := by
        rw [sset, hser]
      rw [hsset]
      exact cacheLookup_insert_other (cacheOf p) k ⟨k, sv⟩ k' hne
  · cases hc : cacheLookup (cacheOf p) k with
    | some s =>
      have hd1 : sdelete p k = SettingsProxy.mk (storeErase p.store k)
          (some (cacheRemove (cacheOf p) k)) := by
        rw [sdelete, hc]
      rw [hd1]
      exact storeLookup_erase_other p.store k k' hne
    | none =>
      have hd1 : sdelete p k = withCache p := by
        rw [sdelete, hc]
      rw [hd1]
      rfl
  · cases hc : cacheLookup (cacheOf p) k with
    | some s =>
      have hd1 : sdelete p k = SettingsProxy.mk (storeErase p.store k)
          (some (cacheRemove (cacheOf p) k)) := by
        rw [sdelete, hc]
      rw [hd1]
      exact cacheLookup_remove_other (cacheOf p) k k' hne
    | none =>
      have hd1 : sdelete p k = withCache p := by
        rw [sdelete, hc]
      rw [hd1]
      rfl

theorem claim_C9_witness :
    ("a" : String) ≠ "b" ∧
    (((sgetTouch ((⟨[], none⟩ : SettingsProxy) :: []) "b").map SettingsProxy.store
        = ((⟨[], none⟩ : SettingsProxy) :: []).map SettingsProxy.store ∧
      (sgetTouch ((⟨[], none⟩ : SettingsProxy) :: []) "b").map cacheOf
        = ((⟨[], none⟩ : SettingsProxy) :: []).map cacheOf) ∧
     ((chainSet ((⟨[], none⟩ : SettingsProxy) :: []) "b" (.vInt 1)).1.tail = [] ∧
      (chainDelete ((⟨[], none⟩ : SettingsProxy) :: []) "b").tail = []) ∧
     (storeLookup (sset ⟨[], none⟩ "b" (.vInt 1)).1.store "a"
        = storeLookup (⟨[], none⟩ : SettingsProxy).store "a" ∧
      cacheLookup (cacheOf (sset ⟨[], none⟩ "b" (.vInt 1)).1) "a"
        = cacheLookup (cacheOf ⟨[], none⟩) "a" ∧
      storeLookup (sdelete ⟨[], none⟩ "b").store "a"
        = storeLookup (⟨[], none⟩ : SettingsProxy).store "a" ∧
      cacheLookup (cacheOf (sdelete ⟨[], none⟩ "b")) "a"
        = cacheLookup (cacheOf ⟨[], none⟩) "a")) :=
  ⟨by decide, claim_C9 ⟨[], none⟩ [] "b" "a" (.vInt 1) (by decide)⟩

/-- Claim C10: with no record anywhere in the chain, no DEFAULTS entry for
the key and a `None` caller default, `get(key, as_type=bool)` returns
`False`, because the terminal `None` is itself passed through boolean
unserialization. -/
theorem claim_C10 (p : SettingsProxy) (anc : List SettingsProxy) (key : String)
    (hraw : rawResolve (p :: anc) key = none) (hd : defaultsLookup key = none) :
    sget (p :: anc) key .vNone .tBool = .ok (.vBool false) := by
  rw [sget_of_noraw_nodefault p anc key .vNone .tBool hraw hd]
  rfl

theorem claim_C10_witness :
    rawResolve ((⟨[], none⟩ : SettingsProxy) :: []) "zzz" = none ∧
    defaultsLookup "zzz" = none ∧
    sget ((⟨[], none⟩ : SettingsProxy) :: []) "zzz" .vNone .tBool = .ok (.vBool false) :=
  ⟨rfl, rfl, claim_C10 ⟨[], none⟩ [] "zzz" rfl rfl⟩
